import Mathlib

/-!
# train_c : verification development

Shallow embedding of `src/mosh.c` (bit population count and the
population-equalising split), of `src/train3.c` (merge of two sorted
singly linked lists) and of `src/q1.c` (trapped rain water), with the
properties of the specification stated and proved over the embedding.

Conventions.
* A `uint64_t` is a natural number below `2 ^ 64`; every arithmetic result is
  reduced modulo `2 ^ 64` where the C operation can wrap.
* An `int` is an integer; a value that does not fit in `int` makes the
  computation fail (`none`) instead of wrapping.
* Operations that C leaves undefined (a shift by 64 or more, a failed
  `assert`, a dereference of `NULL`) are explicit failures of the model.
-/

namespace Mosh

/-! ## Machine arithmetic on `uint64_t` -/

/-- Number of values of `uint64_t`. -/
def U64 : Nat := 2 ^ 64

/-- Largest value of `int`. -/
def INT_MAX : Nat := 2147483647

/-- The all-ones `uint64_t`, `0xFFFFFFFFFFFFFFFF`. -/
def allOnes : Nat := U64 - 1

/-- Bitwise complement `~x` on `uint64_t`. -/
def not64 (x : Nat) : Nat := allOnes ^^^ x

/-- Subtraction `x - y` on `uint64_t` (wraps around). -/
def sub64 (x y : Nat) : Nat := (x + U64 - y % U64) % U64

/-- Left shift `x << s` on `uint64_t`. For `s < 64` this is the C value. For `s ≥ 64` C
leaves the result undefined and the parameter `ovf` says what happens:
`none` makes the shift a guarded operation that fails, `some w` makes it
yield the (arbitrary) word `w`. -/
def shl64 (ovf : Option Nat) (x s : Nat) : Option Nat :=
  if s < 64 then some ((x <<< s) % U64) else ovf.map (fun w => w % U64)

/-! ## `bitPopulationCount` -/

/-- The loop of `bitPopulationCount`: `while (n != 0) { count += n & 1; n >>= 1; }`.
`count` is the `int` accumulator. The sum `count + (n & 1)` is computed in
`uint64_t` and stored back into the `int`; the model fails when it does not
fit. -/
def bitPopulationCount_loop (n : Nat) (count : Int) : Option Int :=
  if _h : n = 0 then some count
  else
    let s : Nat := ((count % (U64 : Int)).toNat + (n &&& 1)) % U64
    if s ≤ INT_MAX then bitPopulationCount_loop (n >>> 1) (s : Int) else none
termination_by n
decreasing_by
  simp only [Nat.shiftRight_eq_div_pow, pow_one]
  exact Nat.div_lt_self (Nat.pos_of_ne_zero _h) (by decide)

/-- The function `size_t bitPopulationCount(uint64_t n)`: runs the loop from `count = 0` and
converts the `int` result to `size_t`. -/
def bitPopulationCount (n : Nat) : Option Nat :=
  (bitPopulationCount_loop n 0).map (fun count => (count % (U64 : Int)).toNat)

/-- Number of bit positions `i` in `0..63` at which `n` has a 1. -/
def bitCount64 (n : Nat) : Nat :=
  ((Finset.range 64).filter (fun i => n.testBit i = true)).card

/-! ## `equalizePopulationCounts_solution` -/

/-- The two output cells `*bit_subset1` and `*bit_subset2`. -/
structure Cells where
  subset1 : Nat
  subset2 : Nat
deriving DecidableEq

/-- The function `int equalizePopulationCounts_solution(uint64_t undisclosed_bit_set,
uint64_t* bit_subset1, uint64_t* bit_subset2)`, as a function from the input
and the initial contents of the two output cells to the final contents of the
cells and the returned `int`. `ovf` is the behaviour of an oversized shift, see
`shl64`. -/
def equalizePopulationCounts_solution (ovf : Option Nat) (undisclosed_bit_set : Nat)
    (cells : Cells) : Option (Cells × Int) := do
  let count ← bitPopulationCount undisclosed_bit_set
  let sh ← shl64 ovf 1 count
  let mask := sub64 sh 1
  let sizeInBits := 8 * 8
  let cells ←
    if count = 0 ∨ sizeInBits = count then do
      let sh ← shl64 ovf 1 (sizeInBits / 2)
      let mask := sub64 sh 1
      let cells := { cells with subset1 := undisclosed_bit_set &&& mask }
      let cells := { cells with subset2 := undisclosed_bit_set &&& not64 mask }
      pure cells
    else do
      let cells := { cells with subset1 := not64 undisclosed_bit_set &&& mask }
      let cells := { cells with subset2 := undisclosed_bit_set &&& not64 mask }
      pure cells
  let c1 ← bitPopulationCount cells.subset1
  let c2 ← bitPopulationCount cells.subset2
  pure (cells, if c1 = c2 then 1 else 0)

/-- The shift amounts that one call evaluates, in program order: line 38
shifts by `count` before the test of line 41, line 42 shifts by
`sizeInBits / 2` inside the first branch. -/
def shiftAmounts (undisclosed_bit_set : Nat) : Option (List Nat) := do
  let count ← bitPopulationCount undisclosed_bit_set
  let sizeInBits := 8 * 8
  if count = 0 ∨ sizeInBits = count then pure [count, sizeInBits / 2] else pure [count]

/-! ## Auxiliary counting functions used in the proofs -/

/-- Sum of the lowest `k` bits of `n`. -/
def bitSum (k n : Nat) : Nat := ∑ i in Finset.range k, (n.testBit i).toNat

/-- Number of ones of `v` among the lowest `c` positions (and below 64). -/
def lowSum (c v : Nat) : Nat :=
  ∑ i in Finset.range 64, (v.testBit i && decide (i < c)).toNat

end Mosh

namespace Train3

/-! ## Memory model for `src/train3.c` -/

/-- A `struct Node*`: `none` is `NULL`, `some p` is the address `p`. -/
abbrev Ptr := Option Nat

/-- The type `struct Node`. -/
structure Node where
  data : Int
  next : Ptr
deriving DecidableEq

/-- A `struct Node**`: the address of a pointer variable, or the address of the
`next` field of the node at address `p`. -/
inductive Ref where
  | var (i : Nat)
  | next (p : Nat)
deriving DecidableEq

/-- Memory: the objects of type `struct Node` by address, and the pointer
variables by index. The content of an address that was never written is
whatever `node` gives there (an indeterminate value). -/
structure Mem where
  node : Nat → Node
  var : Nat → Ptr

/-- The ways a run can go wrong. -/
inductive Fault where
  | assertion
  | nullDeref
  | outOfFuel
deriving DecidableEq

/-- Reading `*r`. -/
def Mem.read (m : Mem) : Ref → Ptr
  | Ref.var i => m.var i
  | Ref.next p => (m.node p).next

/-- The assignment `*r = v`. -/
def Mem.write (m : Mem) (r : Ref) (v : Ptr) : Mem :=
  match r with
  | Ref.var i => { m with var := Function.update m.var i v }
  | Ref.next p =>
    { m with node := Function.update m.node p { m.node p with next := v } }

/-- The function `void MoveNode(struct Node** destRef, struct Node** sourceRef)`. -/
def MoveNode (destRef sourceRef : Ref) (m : Mem) : Except Fault Mem :=
  -- struct Node* newNode = *sourceRef; assert(newNode != NULL);
  match m.read sourceRef with
  | none => Except.error Fault.assertion
  | some newNode =>
    -- *sourceRef = newNode->next;
    let m := m.write sourceRef (m.node newNode).next
    -- newNode->next = *destRef;
    let m := m.write (Ref.next newNode) (m.read destRef)
    -- *destRef = newNode;
    let m := m.write destRef (some newNode)
    Except.ok m

/-- Index of the local variable `a` of `SortedMerge`. -/
def varA : Nat := 0

/-- Index of the local variable `b` of `SortedMerge`. -/
def varB : Nat := 1

/-- The loop of `SortedMerge` (lines 30-41), started with `tail` and run for at
most `fuel` iterations. -/
def SortedMerge_loop (fuel : Nat) (m : Mem) (tail : Ptr) : Except Fault (Mem × Ptr) :=
  match m.var varA, m.var varB with
  | some a, some b =>
    match fuel with
    | 0 => Except.error Fault.outOfFuel
    | fuel + 1 =>
      match tail with
      | none => Except.error Fault.nullDeref
      | some t =>
        match (if (m.node a).data ≤ (m.node b).data
               then MoveNode (Ref.next t) (Ref.var varA) m
               else MoveNode (Ref.next t) (Ref.var varB) m) with
        | Except.error e => Except.error e
        | Except.ok m => SortedMerge_loop fuel m (m.node t).next
  | _, _ => Except.ok (m, tail)

/-- The statement `if (x != NULL) tail->next = x;` for the variable of index `i`. -/
def linkRest (i : Nat) (m : Mem) (tail : Ptr) : Except Fault Mem :=
  match m.var i with
  | none => Except.ok m
  | some _ =>
    match tail with
    | none => Except.error Fault.nullDeref
    | some t => Except.ok (m.write (Ref.next t) (m.var i))

/-- Lines 30-50 of `SortedMerge`: the loop followed by the two conditional
assignments to `tail->next`. -/
def SortedMerge_body (fuel : Nat) (m : Mem) (tail : Ptr) : Except Fault Mem :=
  match SortedMerge_loop fuel m tail with
  | Except.error e => Except.error e
  | Except.ok (m, tail) =>
    match linkRest varA m tail with
    | Except.error e => Except.error e
    | Except.ok m => linkRest varB m tail

/-- The function `struct Node* SortedMerge(struct Node* a, struct Node* b)`, run on the
heap `heap`. `dummy` is the address of the local `struct Node dummy`, whose
content `heap dummy` is indeterminate at entry. The result is the final heap and
the returned pointer `dummy.next`. -/
def SortedMerge (fuel : Nat) (heap : Nat → Node) (dummy : Nat) (a b : Ptr) :
    Except Fault ((Nat → Node) × Ptr) :=
  let m : Mem :=
    { node := heap, var := fun i => if i = varA then a else if i = varB then b else none }
  match SortedMerge_body fuel m (some dummy) with
  | Except.error e => Except.error e
  | Except.ok m => Except.ok (m.node, (m.node dummy).next)

/-- The function `void printList(struct Node* node)`: the sequence of values printed, reading
at most `fuel` nodes. -/
def printList : Nat → (Nat → Node) → Ptr → Option (List Int)
  | _, _, none => some []
  | 0, _, some _ => none
  | fuel + 1, heap, some p =>
    (printList fuel heap (heap p).next).map (fun rest => (heap p).data :: rest)

/-! ## Lists in memory -/

/-- Segment predicate `isSeg heap p xs q`: following `next` from `p` visits exactly the addresses
`xs`, in order, and then arrives at `q`. -/
def isSeg (heap : Nat → Node) : Ptr → List Nat → Ptr → Prop
  | p, [], q => p = q
  | p, x :: xs, q => p = some x ∧ isSeg heap (heap x).next xs q

/-- List predicate `isList heap p xs`: `p` is a `NULL`-terminated list whose nodes are at the
addresses `xs`, in order. -/
def isList (heap : Nat → Node) (p : Ptr) (xs : List Nat) : Prop :=
  isSeg heap p xs none

/-- The data values of the nodes at the addresses `xs`. -/
def dataOf (heap : Nat → Node) (xs : List Nat) : List Int :=
  xs.map (fun p => (heap p).data)

/-- The comparison `x->data <= y->data` on addresses. -/
def leData (heap : Nat → Node) (x y : Nat) : Bool :=
  decide ((heap x).data ≤ (heap y).data)

/-- The heap of `main`: `a` is `5->10->15` at the addresses 1, 2, 3 and `b` is
`2->3->20` at the addresses 4, 5, 6. Every other address, the one of `dummy`
included, holds an arbitrary node. -/
def mainHeap : Nat → Node := fun p =>
  if p = 1 then Node.mk 5 (some 2)
  else if p = 2 then Node.mk 10 (some 3)
  else if p = 3 then Node.mk 15 none
  else if p = 4 then Node.mk 2 (some 5)
  else if p = 5 then Node.mk 3 (some 6)
  else if p = 6 then Node.mk 20 none
  else Node.mk 77 (some 42)

/-- The memory of the comment on `MoveNode`: the variable of index 0 is `dest`,
the list `{1, 2, 3}` at the addresses 4, 5, 6, and the variable of index 1 is
`source`, the list `{1, 2, 3}` at the addresses 1, 2, 3. -/
def moveMem : Mem :=
  { node := fun p =>
      if p = 1 then Node.mk 1 (some 2)
      else if p = 2 then Node.mk 2 (some 3)
      else if p = 3 then Node.mk 3 none
      else if p = 4 then Node.mk 1 (some 5)
      else if p = 5 then Node.mk 2 (some 6)
      else if p = 6 then Node.mk 3 none
      else Node.mk 0 none,
    var := fun i => if i = 0 then some 4 else if i = 1 then some 1 else none }

end Train3

namespace Q1

/-! ## Model of `src/q1.c` -/

/-- Whether an integer is a value of `int`. -/
def inInt (x : Int) : Bool := decide (-2147483648 ≤ x ∧ x ≤ 2147483647)

/-- Reading `height[i]`; an index outside the array is a failure. -/
def readAt (height : List Int) (i : Int) : Option Int :=
  if 0 ≤ i then height[i.toNat]? else none

/-- The loop of `trap` (lines 17-31). Every `int` result that does not fit in
`int` is a failure. -/
def trap_loop (height : List Int) (left right left_max right_max total_water : Int) :
    Option Int :=
  if _h : left < right then
    match readAt height left, readAt height right with
    | some hl, some hr =>
      if hl < hr then
        if hl ≥ left_max then
          -- left_max = height[left]; left++;
          if inInt (left + 1) then
            trap_loop height (left + 1) right hl right_max total_water
          else none
        else
          -- total_water += left_max - height[left]; left++;
          if inInt (left_max - hl) && inInt (total_water + (left_max - hl))
              && inInt (left + 1) then
            trap_loop height (left + 1) right left_max right_max
              (total_water + (left_max - hl))
          else none
      else
        if hr ≥ right_max then
          -- right_max = height[right]; right--;
          if inInt (right - 1) then
            trap_loop height left (right - 1) left_max hr total_water
          else none
        else
          -- total_water += right_max - height[right]; right--;
          if inInt (right_max - hr) && inInt (total_water + (right_max - hr))
              && inInt (right - 1) then
            trap_loop height left (right - 1) left_max right_max
              (total_water + (right_max - hr))
          else none
    | _, _ => none
  else some total_water
termination_by (right - left).toNat
decreasing_by
  all_goals simp_wf
  all_goals omega

/-- The function `int trap(int* height, int heightSize)`. -/
def trap (height : List Int) (heightSize : Int) : Option Int :=
  if inInt (heightSize - 1) then trap_loop height 0 (heightSize - 1) 0 0 0 else none

/-! ## The brute-force computation of `main` (lines 40-63) -/

/-- The update `if (x > m) m = x;` of a running maximum. -/
def updMax (m x : Int) : Int := if x > m then x else m

/-- The loop `for (int j = i; j >= 0; j--) if (height[j] > maxLeft) maxLeft = height[j];`
entered with `j` and `maxLeft`. -/
def maxLeftLoop (height : List Int) : Nat → Int → Int
  | 0, maxLeft => updMax maxLeft (height.getD 0 0)
  | j + 1, maxLeft => maxLeftLoop height j (updMax maxLeft (height.getD (j + 1) 0))

/-- The loop `for (int j = i; j < heightSize; j++) if (height[j] > maxRight) maxRight = height[j];`
entered with `j`, the number `heightSize - j` of iterations left, and `maxRight`. -/
def maxRightLoop (height : List Int) : Nat → Nat → Int → Int
  | _, 0, maxRight => maxRight
  | j, c + 1, maxRight => maxRightLoop height (j + 1) c (updMax maxRight (height.getD j 0))

/-- The value `waterAtI` of one iteration of the outer loop. -/
def waterAt (height : List Int) (heightSize i : Nat) : Int :=
  let maxLeft := maxLeftLoop height i 0
  let maxRight := maxRightLoop height i (heightSize - i) 0
  (if maxLeft < maxRight then maxLeft else maxRight) - height.getD i 0

/-- The variable `count` after the first `i` iterations of the outer loop, for
an array of `heightSize` elements. -/
def bruteForce (height : List Int) (heightSize : Nat) : Nat → Int
  | 0 => 0
  | i + 1 => bruteForce height heightSize i + waterAt height heightSize i

/-! ## Auxiliary maxima used in the proofs -/

/-- Maximum of 0 and of the first `k` elements. -/
def prefixMax (height : List Int) : Nat → Int
  | 0 => 0
  | k + 1 => max (prefixMax height k) (height.getD k 0)

/-- Maximum of 0 and of the `c` elements from index `k` on. -/
def suffixMax (height : List Int) : Nat → Nat → Int
  | _, 0 => 0
  | k, c + 1 => max (height.getD k 0) (suffixMax height (k + 1) c)

end Q1

namespace Mosh

/-! ## Bit counting lemmas -/

theorem bitCount64_eq_bitSum (n : Nat) : bitCount64 n = bitSum 64 n := by
  unfold bitCount64 bitSum
  rw [Finset.card_filter]
  refine Finset.sum_congr rfl (fun i _ => ?_)
  cases n.testBit i <;> simp

theorem bitSum_le (k n : Nat) : bitSum k n ≤ k := by
  unfold bitSum
  calc ∑ i in Finset.range k, (n.testBit i).toNat
      ≤ ∑ _i in Finset.range k, 1 :=
        Finset.sum_le_sum (fun i _ => Bool.toNat_le _)
    _ = k := by simp

theorem bitSum_succ_shift (k n : Nat) :
    bitSum (k + 1) n = n % 2 + bitSum k (n >>> 1) := by
  unfold bitSum
  rw [Finset.sum_range_succ', Nat.add_comm]
  congr 1
  · rcases Nat.mod_two_eq_zero_or_one n with h | h <;> simp [h]
  · refine Finset.sum_congr rfl (fun i _ => ?_)
    rw [Nat.testBit_shiftRight, Nat.add_comm]

theorem bitSum_zero_arg (k : Nat) : bitSum k 0 = 0 := by
  simp [bitSum]

theorem U64_eq : U64 = 2 ^ 64 := rfl

theorem INT_MAX_lt_U64 : INT_MAX < U64 := by
  unfold INT_MAX U64; norm_num

theorem sixtyfour_lt_U64 : 64 < U64 := by
  unfold U64; norm_num

theorem toNat_emod_U64 (c : Nat) (h : c < U64) :
    ((c : Int) % (U64 : Int)).toNat = c := by
  rw [Int.emod_eq_of_lt (Int.ofNat_nonneg c) (Int.ofNat_lt.mpr h)]
  exact Int.toNat_ofNat c

/-- The loop adds the bits of `n` to the accumulator, and the accumulator
never leaves the range of `int`, as long as the final value fits. -/
theorem bitPopulationCount_loop_eq (k : Nat) :
    ∀ (n c : Nat), n < 2 ^ k → c + k ≤ INT_MAX →
      bitPopulationCount_loop n (c : Int) = some ((c + bitSum k n : Nat) : Int) := by
  induction k with
  | zero =>
    intro n c hn _
    have h0 : n = 0 := by simpa using hn
    subst h0
    rw [bitPopulationCount_loop]
    simp [bitSum]
  | succ k ih =>
    intro n c hn hc
    rw [bitPopulationCount_loop]
    by_cases h0 : n = 0
    · subst h0
      simp [bitSum_zero_arg]
    · have hcU : c < U64 := by
        have := INT_MAX_lt_U64
        omega
      have hb : n &&& 1 = n % 2 := Nat.and_one_is_mod n
      have hlt : n % 2 < 2 := Nat.mod_lt _ (by decide)
      have hs : ((c : Int) % (U64 : Int)).toNat + (n &&& 1) = c + n % 2 := by
        rw [toNat_emod_U64 c hcU, hb]
      have hs2 : (c + n % 2) % U64 = c + n % 2 := by
        apply Nat.mod_eq_of_lt
        have := INT_MAX_lt_U64
        omega
      have hle : c + n % 2 ≤ INT_MAX := by omega
      have hn2 : n >>> 1 < 2 ^ k := by
        rw [Nat.shiftRight_eq_div_pow, pow_one]
        rw [pow_succ] at hn
        omega
      simp only [h0, dite_false, hs, hs2, hle, if_true]
      rw [ih (n >>> 1) (c + n % 2) hn2 (by omega), bitSum_succ_shift]
      simp [Nat.add_assoc]

theorem bitPopulationCount_eq (n : Nat) (hn : n < U64) :
    bitPopulationCount n = some (bitSum 64 n) := by
  have hn2 : n < 2 ^ 64 := hn
  have hc : 0 + 64 ≤ INT_MAX := by unfold INT_MAX; norm_num
  have h := bitPopulationCount_loop_eq 64 n 0 hn2 hc
  have hz : ((0 : Nat) : Int) = 0 := rfl
  rw [hz] at h
  have hlt : 0 + bitSum 64 n < U64 := by
    have := bitSum_le 64 n
    have := sixtyfour_lt_U64
    omega
  unfold bitPopulationCount
  rw [h, Option.map_some', toNat_emod_U64 _ hlt, Nat.zero_add]

/-! ## Bit-level facts about the masks -/

theorem allOnes_eq : allOnes = 2 ^ 64 - 1 := rfl

theorem testBit_not64 (x i : Nat) :
    (not64 x).testBit i = xor (decide (i < 64)) (x.testBit i) := by
  rw [not64, allOnes_eq, Nat.testBit_xor, Nat.testBit_two_pow_sub_one]

theorem testBit_high_eq_false (x i : Nat) (hx : x < U64) (hi : 64 ≤ i) :
    x.testBit i = false := by
  apply Nat.testBit_lt_two_pow
  calc x < 2 ^ 64 := hx
    _ ≤ 2 ^ i := Nat.pow_le_pow_right (by decide) hi

theorem two_pow_lt_U64 (c : Nat) (hc : c < 64) : 2 ^ c < U64 :=
  Nat.pow_lt_pow_right (by decide) hc

theorem shl64_one (ovf : Option Nat) (c : Nat) (hc : c < 64) :
    shl64 ovf 1 c = some (2 ^ c) := by
  unfold shl64
  rw [if_pos hc, Nat.one_shiftLeft, Nat.mod_eq_of_lt (two_pow_lt_U64 c hc)]

theorem sub64_one (x : Nat) (h0 : 0 < x) (hx : x < U64) : sub64 x 1 = x - 1 := by
  unfold sub64
  have h1 : 1 % U64 = 1 := Nat.mod_eq_of_lt (by have := sixtyfour_lt_U64; omega)
  rw [h1]
  have h2 : x + U64 - 1 = (x - 1) + U64 := by omega
  rw [h2, Nat.add_mod_right, Nat.mod_eq_of_lt (by omega)]

theorem mask_eq (ovf : Option Nat) (c : Nat) (hc : c < 64) :
    (shl64 ovf 1 c).map (fun sh => sub64 sh 1) = some (2 ^ c - 1) := by
  rw [shl64_one ovf c hc, Option.map_some',
    sub64_one (2 ^ c) (Nat.pos_pow_of_pos c (by decide)) (two_pow_lt_U64 c hc)]

theorem sum_range_decide_lt (c : Nat) (hc : c ≤ 64) :
    ∑ i in Finset.range 64, (decide (i < c)).toNat = c := by
  have h : ∀ i ∈ Finset.range 64, (decide (i < c)).toNat = if i < c then 1 else 0 := by
    intro i _
    by_cases hi : i < c <;> simp [hi]
  rw [Finset.sum_congr rfl h, ← Finset.card_filter]
  have : (Finset.range 64).filter (fun i => i < c) = Finset.range c := by
    ext i
    simp only [Finset.mem_filter, Finset.mem_range]
    omega
  rw [this, Finset.card_range]

/-- Population of `~v & mask`: the zeros of `v` among the lowest `c` positions. -/
theorem bitSum_subset1 (v c : Nat) (hc : c ≤ 64) :
    bitSum 64 (not64 v &&& (2 ^ c - 1)) + lowSum c v = c := by
  unfold bitSum lowSum
  rw [← Finset.sum_add_distrib]
  conv_rhs => rw [← sum_range_decide_lt c hc]
  refine Finset.sum_congr rfl (fun i hi => ?_)
  have hi64 : i < 64 := Finset.mem_range.mp hi
  rw [Nat.testBit_and, testBit_not64, Nat.testBit_two_pow_sub_one]
  cases v.testBit i <;> by_cases h : i < c <;> simp [h, hi64]

/-- Population of `v & ~mask`: the ones of `v` outside the lowest `c` positions. -/
theorem bitSum_subset2 (v c : Nat) :
    bitSum 64 (v &&& not64 (2 ^ c - 1)) + lowSum c v = bitSum 64 v := by
  unfold bitSum lowSum
  rw [← Finset.sum_add_distrib]
  refine Finset.sum_congr rfl (fun i hi => ?_)
  have hi64 : i < 64 := Finset.mem_range.mp hi
  rw [Nat.testBit_and, testBit_not64, Nat.testBit_two_pow_sub_one]
  cases v.testBit i <;> by_cases h : i < c <;> simp [h, hi64]

/-- The general-case split balances: both parts have population
`count - lowSum count v`. -/
theorem bitSum_balanced (v : Nat) :
    bitSum 64 (not64 v &&& (2 ^ bitSum 64 v - 1)) =
      bitSum 64 (v &&& not64 (2 ^ bitSum 64 v - 1)) := by
  have h1 := bitSum_subset1 v (bitSum 64 v) (bitSum_le 64 v)
  have h2 := bitSum_subset2 v (bitSum 64 v)
  omega

theorem eq_zero_of_bitSum_eq_zero (v : Nat) (hv : v < U64) (h : bitSum 64 v = 0) :
    v = 0 := by
  apply Nat.eq_of_testBit_eq
  intro i
  rw [Nat.zero_testBit]
  by_cases hi : i < 64
  · unfold bitSum at h
    have := (Finset.sum_eq_zero_iff.mp h) i (Finset.mem_range.mpr hi)
    cases hb : v.testBit i
    · rfl
    · rw [hb] at this; simp at this
  · exact testBit_high_eq_false v i hv (by omega)

theorem bitSum_not64 (v : Nat) : bitSum 64 (not64 v) + bitSum 64 v = 64 := by
  unfold bitSum
  rw [← Finset.sum_add_distrib]
  have : ∀ i ∈ Finset.range 64, ((not64 v).testBit i).toNat + (v.testBit i).toNat = 1 := by
    intro i hi
    have hi64 : i < 64 := Finset.mem_range.mp hi
    rw [testBit_not64]
    cases v.testBit i <;> simp [hi64]
  rw [Finset.sum_congr rfl this]
  simp

theorem not64_lt (v : Nat) (hv : v < U64) : not64 v < U64 := by
  unfold not64
  exact Nat.xor_lt_two_pow (by rw [allOnes_eq]; norm_num) hv

theorem not64_not64 (v : Nat) : not64 (not64 v) = v := by
  unfold not64
  rw [← Nat.xor_assoc, Nat.xor_self, Nat.zero_xor]

theorem eq_allOnes_of_bitSum_eq (v : Nat) (hv : v < U64) (h : bitSum 64 v = 64) :
    v = allOnes := by
  have h1 := bitSum_not64 v
  have h2 : not64 v = 0 :=
    eq_zero_of_bitSum_eq_zero (not64 v) (not64_lt v hv) (by omega)
  have h3 := not64_not64 v
  rw [h2] at h3
  rw [← h3, not64, Nat.xor_zero]

theorem and_lt_U64_left (x y : Nat) (hx : x < U64) : x &&& y < U64 :=
  Nat.lt_of_le_of_lt Nat.and_le_left hx

theorem and_lt_U64_right (x y : Nat) (hy : y < U64) : x &&& y < U64 :=
  Nat.lt_of_le_of_lt Nat.and_le_right hy

/-- The general case `0 < count < 64`, whatever an oversized shift does. -/
theorem equalize_general (ovf : Option Nat) (v : Nat) (cells : Cells) (hv : v < U64)
    (h0 : bitSum 64 v ≠ 0) (h64 : bitSum 64 v < 64) :
    equalizePopulationCounts_solution ovf v cells =
      some (Cells.mk (not64 v &&& (2 ^ bitSum 64 v - 1))
              (v &&& not64 (2 ^ bitSum 64 v - 1)), 1) := by
  have hm : 2 ^ bitSum 64 v - 1 < U64 := by
    have := two_pow_lt_U64 _ h64
    omega
  have hc : ¬ (bitSum 64 v = 0 ∨ 8 * 8 = bitSum 64 v) := by omega
  unfold equalizePopulationCounts_solution
  rw [bitPopulationCount_eq v hv]
  simp only [Option.bind_eq_bind, Option.some_bind, Option.pure_def]
  rw [shl64_one ovf _ h64]
  simp only [Option.some_bind, if_neg hc]
  rw [sub64_one _ (Nat.pos_pow_of_pos _ (by decide)) (two_pow_lt_U64 _ h64),
    bitPopulationCount_eq _ (and_lt_U64_right _ _ hm),
    bitPopulationCount_eq _ (and_lt_U64_left _ _ hv)]
  simp only [Option.some_bind, bitSum_balanced v, if_true]

/-- The case `count = 0` or `count = 64`, provided the shift by 64 of line 38
is not guarded when `count = 64`: the mask of line 38 is overwritten before it
is used, so the word that shift yields does not matter. -/
theorem equalize_special (ovf : Option Nat) (v : Nat) (cells : Cells) (hv : v < U64)
    (h : bitSum 64 v = 0 ∨ bitSum 64 v = 64) (hov : ovf = none → bitSum 64 v ≠ 64) :
    equalizePopulationCounts_solution ovf v cells =
      some (Cells.mk (v &&& (2 ^ 32 - 1)) (v &&& not64 (2 ^ 32 - 1)),
        if bitSum 64 (v &&& (2 ^ 32 - 1)) = bitSum 64 (v &&& not64 (2 ^ 32 - 1))
        then 1 else 0) := by
  have e64 : 8 * 8 = 64 := by norm_num
  have e32 : 64 / 2 = 32 := by norm_num
  have hc : bitSum 64 v = 0 ∨ 64 = bitSum 64 v :=
    h.elim Or.inl (fun h => Or.inr h.symm)
  have hsh : ∃ sh, shl64 ovf 1 (bitSum 64 v) = some sh := by
    unfold shl64
    by_cases hlt : bitSum 64 v < 64
    · exact ⟨_, if_pos hlt⟩
    · have h64 : bitSum 64 v = 64 := by omega
      cases ovf with
      | none => exact absurd h64 (hov rfl)
      | some w => exact ⟨_, by rw [if_neg hlt]; rfl⟩
  obtain ⟨sh, hsh⟩ := hsh
  have h32 : shl64 ovf 1 32 = some (2 ^ 32) := shl64_one _ 32 (by omega)
  unfold equalizePopulationCounts_solution
  rw [bitPopulationCount_eq v hv]
  simp only [Option.bind_eq_bind, Option.some_bind, Option.pure_def]
  rw [hsh]
  simp only [Option.some_bind]
  rw [e64, if_pos hc, e32, h32]
  simp only [Option.some_bind]
  rw [sub64_one _ (Nat.pos_pow_of_pos _ (by omega)) (two_pow_lt_U64 32 (by omega)),
    bitPopulationCount_eq _ (and_lt_U64_left _ _ hv),
    bitPopulationCount_eq _ (and_lt_U64_left _ _ hv)]
  simp only [Option.some_bind]

/-- With a guarded shift the call on the all-ones word fails: line 38 shifts
by `count = 64` before the test of line 41. -/
theorem equalize_guarded_allOnes (cells : Cells) :
    equalizePopulationCounts_solution none allOnes cells = none := by
  have hv : allOnes < U64 := by unfold allOnes U64; norm_num
  have hb : bitSum 64 allOnes = 64 := by decide
  unfold equalizePopulationCounts_solution
  rw [bitPopulationCount_eq allOnes hv, hb]
  rfl

theorem or_special (v : Nat) (hv : v < U64) :
    (v &&& (2 ^ 32 - 1)) ||| (v &&& not64 (2 ^ 32 - 1)) = v := by
  apply Nat.eq_of_testBit_eq
  intro i
  rw [Nat.testBit_or, Nat.testBit_and, Nat.testBit_and, testBit_not64,
    Nat.testBit_two_pow_sub_one]
  by_cases hi : i < 64
  · cases v.testBit i <;> by_cases h : i < 32 <;> simp [h, hi]
  · rw [testBit_high_eq_false v i hv (by omega)]
    simp

theorem or_general (v c : Nat) (hv : v < U64) (hc : c ≤ 64) :
    (not64 v &&& (2 ^ c - 1)) ||| (v &&& not64 (2 ^ c - 1)) = v ^^^ (2 ^ c - 1) := by
  apply Nat.eq_of_testBit_eq
  intro i
  rw [Nat.testBit_or, Nat.testBit_and, Nat.testBit_and, testBit_not64, testBit_not64,
    Nat.testBit_xor, Nat.testBit_two_pow_sub_one]
  by_cases hi : i < 64
  · cases v.testBit i <;> by_cases h : i < c <;> simp [h, hi]
  · have hic : ¬ i < c := by omega
    rw [testBit_high_eq_false v i hv (by omega)]
    simp [hic, hi]

theorem xor_mask_ne (v c : Nat) (hc : 0 < c) : v ^^^ (2 ^ c - 1) ≠ v := by
  intro h
  have h0 := congrArg (fun x => x.testBit 0) h
  simp only [Nat.testBit_xor, Nat.testBit_two_pow_sub_one] at h0
  cases hb : v.testBit 0 <;> rw [hb] at h0 <;> simp [hc] at h0

theorem and_disjoint (x y m : Nat) (hm : m < U64) :
    (x &&& m) &&& (y &&& not64 m) = 0 := by
  apply Nat.eq_of_testBit_eq
  intro i
  rw [Nat.testBit_and, Nat.testBit_and, Nat.testBit_and, testBit_not64, Nat.zero_testBit]
  by_cases hi : i < 64
  · cases x.testBit i <;> cases y.testBit i <;> cases m.testBit i <;> simp [hi]
  · rw [testBit_high_eq_false m i hm (by omega)]
    simp

/-! ## The claims about `src/mosh.c` -/

/-- C1: for every 64-bit unsigned `n`, `bitPopulationCount n` returns (the
`int` accumulator does not overflow) the number of bit positions `i` in `0..63`
at which `n` has a 1, a value in `[0, 64]`; and `bitPopulationCount 0 = 0`,
`bitPopulationCount 1 = 1`, `bitPopulationCount 0xFFFFFFFFFFFFFFFF = 64`. -/
theorem bitPopulationCount_counts_set_bits (n : Nat) (hn : n < U64) :
    bitPopulationCount n = some (bitCount64 n) ∧ bitCount64 n ≤ 64 ∧
    bitPopulationCount 0 = some 0 ∧ bitPopulationCount 1 = some 1 ∧
    bitPopulationCount 0xFFFFFFFFFFFFFFFF = some 64 := by
  have h64 : (0xFFFFFFFFFFFFFFFF : Nat) < U64 := by unfold U64; norm_num
  have h0 : (0 : Nat) < U64 := by unfold U64; norm_num
  have h1 : (1 : Nat) < U64 := by unfold U64; norm_num
  refine ⟨?_, ?_, ?_, ?_, ?_⟩
  · rw [bitPopulationCount_eq n hn, bitCount64_eq_bitSum]
  · rw [bitCount64_eq_bitSum]; exact bitSum_le 64 n
  · rw [bitPopulationCount_eq 0 h0]; decide
  · rw [bitPopulationCount_eq 1 h1]; decide
  · rw [bitPopulationCount_eq _ h64]; decide

theorem bitPopulationCount_counts_set_bits_witness :
    66775235 < U64 ∧
    (bitPopulationCount 66775235 = some (bitCount64 66775235) ∧
      bitCount64 66775235 ≤ 64 ∧
      bitPopulationCount 0 = some 0 ∧ bitPopulationCount 1 = some 1 ∧
      bitPopulationCount 0xFFFFFFFFFFFFFFFF = some 64) :=
  ⟨by decide, bitPopulationCount_counts_set_bits 66775235 (by decide)⟩

/-- C2: for every 64-bit `v` with `0 < popcount v < 64`, whatever an oversized
shift would do, `equalizePopulationCounts_solution v` writes two subsets on
which `bitPopulationCount` returns the same value and it returns 1 (true). For
`v = 66775235` (population 16) the subsets are 5948 and 66715648, both of
population 8. -/
theorem equalize_balanced (ovf : Option Nat) (v : Nat) (cells : Cells) (hv : v < U64)
    (h0 : 0 < bitCount64 v) (h64 : bitCount64 v < 64) :
    (∃ out k, equalizePopulationCounts_solution ovf v cells = some (out, 1) ∧
      bitPopulationCount out.subset1 = some k ∧
      bitPopulationCount out.subset2 = some k) ∧
    bitPopulationCount 66775235 = some 16 ∧
    equalizePopulationCounts_solution ovf 66775235 cells =
      some (Cells.mk 5948 66715648, 1) ∧
    bitPopulationCount 5948 = some 8 ∧ bitPopulationCount 66715648 = some 8 := by
  rw [bitCount64_eq_bitSum] at h0 h64
  have hm : 2 ^ bitSum 64 v - 1 < U64 := by
    have := two_pow_lt_U64 _ h64
    omega
  have hex : (66775235 : Nat) < U64 := by unfold U64; norm_num
  have ha : (5948 : Nat) < U64 := by unfold U64; norm_num
  have hb : (66715648 : Nat) < U64 := by unfold U64; norm_num
  refine ⟨⟨_, bitSum 64 (v &&& not64 (2 ^ bitSum 64 v - 1)),
    equalize_general ovf v cells hv (by omega) h64, ?_, ?_⟩, ?_, ?_, ?_, ?_⟩
  · rw [bitPopulationCount_eq _ (and_lt_U64_right _ _ hm), bitSum_balanced v]
  · rw [bitPopulationCount_eq _ (and_lt_U64_left _ _ hv)]
  · rw [bitPopulationCount_eq _ hex]; decide
  · rw [equalize_general ovf 66775235 cells hex (by decide) (by decide)]; decide
  · rw [bitPopulationCount_eq _ ha]; decide
  · rw [bitPopulationCount_eq _ hb]; decide

theorem equalize_balanced_witness :
    66775235 < U64 ∧ 0 < bitCount64 66775235 ∧ bitCount64 66775235 < 64 ∧
    ((∃ out k, equalizePopulationCounts_solution none 66775235 (Cells.mk 0 0) =
        some (out, 1) ∧
      bitPopulationCount out.subset1 = some k ∧
      bitPopulationCount out.subset2 = some k) ∧
    bitPopulationCount 66775235 = some 16 ∧
    equalizePopulationCounts_solution none 66775235 (Cells.mk 0 0) =
      some (Cells.mk 5948 66715648, 1) ∧
    bitPopulationCount 5948 = some 8 ∧ bitPopulationCount 66715648 = some 8) :=
  ⟨by decide, by decide, by decide,
    equalize_balanced none 66775235 (Cells.mk 0 0) (by decide) (by decide) (by decide)⟩

/-- C3 (as stated, refuted): at `v = 1` the call writes `subset1 = 0` and
`subset2 = 0`, whose union is not `v`. -/
theorem union_ne_input_at_one :
    equalizePopulationCounts_solution none 1 (Cells.mk 0 0) = some (Cells.mk 0 0, 1) ∧
    (Cells.mk 0 0).subset1 ||| (Cells.mk 0 0).subset2 ≠ 1 := by
  have h1 : (1 : Nat) < U64 := by unfold U64; norm_num
  refine ⟨?_, by decide⟩
  rw [equalize_general none 1 (Cells.mk 0 0) h1 (by decide) (by decide)]
  decide

/-- C3 (amended): for every 64-bit `v`, the shift by 64 of line 38 being
allowed to yield any word (it must only not fail when `popcount v = 64`): when
`popcount v` is 0 or 64 the union `subset1 | subset2` equals `v`; when
`0 < popcount v < 64` the union equals `v ^ (2 ^ count - 1)`, that is `v` with
its lowest `count` bits complemented, and so differs from `v`. -/
theorem union_of_subsets (ovf : Option Nat) (v : Nat) (cells : Cells) (hv : v < U64)
    (hov : ovf = none → bitCount64 v ≠ 64) :
    ∃ out r, equalizePopulationCounts_solution ovf v cells = some (out, r) ∧
      ((bitCount64 v = 0 ∨ bitCount64 v = 64) → out.subset1 ||| out.subset2 = v) ∧
      ((0 < bitCount64 v ∧ bitCount64 v < 64) →
        out.subset1 ||| out.subset2 = v ^^^ (2 ^ bitCount64 v - 1) ∧
        out.subset1 ||| out.subset2 ≠ v) := by
  rw [bitCount64_eq_bitSum] at *
  by_cases h : bitSum 64 v = 0 ∨ bitSum 64 v = 64
  · refine ⟨_, _, equalize_special ovf v cells hv h hov, fun _ => or_special v hv, ?_⟩
    intro h'
    omega
  · have hle := bitSum_le 64 v
    have h0 : bitSum 64 v ≠ 0 := fun e => h (Or.inl e)
    have h64 : bitSum 64 v < 64 := by omega
    refine ⟨_, _, equalize_general ovf v cells hv h0 h64, fun h' => absurd h' h, ?_⟩
    intro _
    have e := or_general v (bitSum 64 v) hv hle
    exact ⟨e, by rw [e]; exact xor_mask_ne v _ (by omega)⟩

theorem union_of_subsets_witness :
    66775235 < U64 ∧ ((none : Option Nat) = none → bitCount64 66775235 ≠ 64) ∧
    ∃ out r, equalizePopulationCounts_solution none 66775235 (Cells.mk 0 0) =
        some (out, r) ∧
      ((bitCount64 66775235 = 0 ∨ bitCount64 66775235 = 64) →
        out.subset1 ||| out.subset2 = 66775235) ∧
      ((0 < bitCount64 66775235 ∧ bitCount64 66775235 < 64) →
        out.subset1 ||| out.subset2 = 66775235 ^^^ (2 ^ bitCount64 66775235 - 1) ∧
        out.subset1 ||| out.subset2 ≠ 66775235) :=
  ⟨by decide, fun _ => by decide,
    union_of_subsets none 66775235 (Cells.mk 0 0) (by decide) (fun _ => by decide)⟩

/-- C4: for every 64-bit `v`, the shift by 64 of line 38 being allowed to yield
any word (it must only not fail when `popcount v = 64`), the two outputs are
position-wise disjoint: `subset1 & subset2 = 0`. -/
theorem subsets_disjoint (ovf : Option Nat) (v : Nat) (cells : Cells) (hv : v < U64)
    (hov : ovf = none → bitCount64 v ≠ 64) :
    ∃ out r, equalizePopulationCounts_solution ovf v cells = some (out, r) ∧
      out.subset1 &&& out.subset2 = 0 := by
  rw [bitCount64_eq_bitSum] at hov
  by_cases h : bitSum 64 v = 0 ∨ bitSum 64 v = 64
  · exact ⟨_, _, equalize_special ovf v cells hv h hov,
      and_disjoint v v _ (by have := two_pow_lt_U64 32 (by omega); omega)⟩
  · have hle := bitSum_le 64 v
    have h0 : bitSum 64 v ≠ 0 := fun e => h (Or.inl e)
    have h64 : bitSum 64 v < 64 := by omega
    exact ⟨_, _, equalize_general ovf v cells hv h0 h64,
      and_disjoint (not64 v) v _ (by have := two_pow_lt_U64 _ h64; omega)⟩

theorem subsets_disjoint_witness :
    0xFFFFFFFFFFFFFFFF < U64 ∧ (some 1 = none → bitCount64 0xFFFFFFFFFFFFFFFF ≠ 64) ∧
    ∃ out r, equalizePopulationCounts_solution (some 1) 0xFFFFFFFFFFFFFFFF (Cells.mk 0 0) =
        some (out, r) ∧ out.subset1 &&& out.subset2 = 0 :=
  ⟨by decide, fun h => absurd h (by decide),
    subsets_disjoint (some 1) 0xFFFFFFFFFFFFFFFF (Cells.mk 0 0) (by decide)
      (fun h => absurd h (by decide))⟩

/-- C5: for every 64-bit `v` with `popcount v = 0` or `popcount v = 64`, that
is `v = 0` or `v = 0xFFFFFFFFFFFFFFFF`, the shift by 64 of line 38 being allowed
to yield any word (it must only not fail when `popcount v = 64`): the call
yields `subset1 = v & 0x00000000FFFFFFFF` and `subset2 = v & 0xFFFFFFFF00000000`,
the two masks are complementary and cover 32 positions each, the populations
are 0 and 0 or 32 and 32, and the call returns 1 (true). -/
theorem equalize_uniform_input (ovf : Option Nat) (v : Nat) (cells : Cells) (hv : v < U64)
    (h : bitCount64 v = 0 ∨ bitCount64 v = 64) (hov : ovf = none → bitCount64 v ≠ 64) :
    (v = 0 ∨ v = 0xFFFFFFFFFFFFFFFF) ∧
    equalizePopulationCounts_solution ovf v cells =
      some (Cells.mk (v &&& 0x00000000FFFFFFFF) (v &&& 0xFFFFFFFF00000000), 1) ∧
    bitCount64 0x00000000FFFFFFFF = 32 ∧ bitCount64 0xFFFFFFFF00000000 = 32 ∧
    0x00000000FFFFFFFF &&& 0xFFFFFFFF00000000 = 0 ∧
    0x00000000FFFFFFFF ||| 0xFFFFFFFF00000000 = 0xFFFFFFFFFFFFFFFF ∧
    ((bitPopulationCount (v &&& 0x00000000FFFFFFFF) = some 0 ∧
        bitPopulationCount (v &&& 0xFFFFFFFF00000000) = some 0) ∨
     (bitPopulationCount (v &&& 0x00000000FFFFFFFF) = some 32 ∧
        bitPopulationCount (v &&& 0xFFFFFFFF00000000) = some 32)) := by
  rw [bitCount64_eq_bitSum] at h hov
  have hz : (0 : Nat) < U64 := by unfold U64; norm_num
  have ha : allOnes < U64 := by unfold allOnes U64; norm_num
  have hv' : v = 0 ∨ v = allOnes :=
    h.elim (fun e => Or.inl (eq_zero_of_bitSum_eq_zero v hv e))
      (fun e => Or.inr (eq_allOnes_of_bitSum_eq v hv e))
  have hsp := equalize_special ovf v cells hv h hov
  refine ⟨hv', ?_, by decide, by decide, by decide, by decide, ?_⟩
  · rw [hsp]
    rcases hv' with e | e <;> subst e <;> decide
  · rcases hv' with e | e <;> subst e
    · left
      exact ⟨by rw [bitPopulationCount_eq _ (and_lt_U64_left _ _ hz)]; decide,
        by rw [bitPopulationCount_eq _ (and_lt_U64_left _ _ hz)]; decide⟩
    · right
      exact ⟨by rw [bitPopulationCount_eq _ (and_lt_U64_left _ _ ha)]; decide,
        by rw [bitPopulationCount_eq _ (and_lt_U64_left _ _ ha)]; decide⟩

theorem equalize_uniform_input_witness :
    0xFFFFFFFFFFFFFFFF < U64 ∧
    (bitCount64 0xFFFFFFFFFFFFFFFF = 0 ∨ bitCount64 0xFFFFFFFFFFFFFFFF = 64) ∧
    (some 1 = none → bitCount64 0xFFFFFFFFFFFFFFFF ≠ 64) ∧
    equalizePopulationCounts_solution (some 1) 0xFFFFFFFFFFFFFFFF (Cells.mk 0 0) =
      some (Cells.mk (0xFFFFFFFFFFFFFFFF &&& 0x00000000FFFFFFFF)
        (0xFFFFFFFFFFFFFFFF &&& 0xFFFFFFFF00000000), 1) :=
  ⟨by decide, by decide, fun h => absurd h (by decide),
    (equalize_uniform_input (some 1) 0xFFFFFFFFFFFFFFFF (Cells.mk 0 0) (by decide)
      (by decide) (fun h => absurd h (by decide))).2.1⟩

/-- C6 (the code at the failing input): on `v = 0xFFFFFFFFFFFFFFFF` the call
evaluates a shift by 64 first (line 38, before the test of line 41) and then a
shift by 32, so with a guarded shift it fails, for every content of the output
cells. -/
theorem shift_by_64_at_allOnes :
    shiftAmounts 0xFFFFFFFFFFFFFFFF = some [64, 32] ∧
    bitPopulationCount 0xFFFFFFFFFFFFFFFF = some 64 ∧
    shl64 none 1 64 = none ∧
    ∀ cells, equalizePopulationCounts_solution none 0xFFFFFFFFFFFFFFFF cells = none := by
  have ha : (0xFFFFFFFFFFFFFFFF : Nat) < U64 := by unfold U64; norm_num
  have hb : bitPopulationCount 0xFFFFFFFFFFFFFFFF = some 64 := by
    rw [bitPopulationCount_eq _ ha]; decide
  refine ⟨?_, hb, rfl, fun cells => equalize_guarded_allOnes cells⟩
  unfold shiftAmounts
  rw [hb]
  rfl

/-- C7: the result of `equalizePopulationCounts_solution` (both output cells
and the returned value) is the same for every pair of initial contents of the
output cells, for every input and every behaviour of an oversized shift; so a
second call on the same `v`, started from the cells the first call left, yields
the same result again. -/
theorem equalize_ignores_initial_cells (ovf : Option Nat) (v : Nat) (c c' : Cells) :
    equalizePopulationCounts_solution ovf v c = equalizePopulationCounts_solution ovf v c' ∧
    ∀ out r, equalizePopulationCounts_solution ovf v c = some (out, r) →
      equalizePopulationCounts_solution ovf v out = some (out, r) := by
  have key : ∀ a b : Cells, equalizePopulationCounts_solution ovf v a =
      equalizePopulationCounts_solution ovf v b := by
    intro a b
    unfold equalizePopulationCounts_solution
    rfl
  exact ⟨key c c', fun out r h => by rw [key out c]; exact h⟩

/-- C8: for every 64-bit `v`, the shift by 64 of line 38 being allowed to yield
any word (it must only not fail when `popcount v = 64`), the call returns, both
cells are written, and the returned value is 1 exactly when
`bitPopulationCount` of the written `subset1` equals that of the written
`subset2`, and 0 exactly when they differ. -/
theorem equalize_returns_comparison (ovf : Option Nat) (v : Nat) (cells : Cells)
    (hv : v < U64) (hov : ovf = none → bitCount64 v ≠ 64) :
    ∃ out r c1 c2, equalizePopulationCounts_solution ovf v cells = some (out, r) ∧
      bitPopulationCount out.subset1 = some c1 ∧
      bitPopulationCount out.subset2 = some c2 ∧
      (r = 1 ↔ c1 = c2) ∧ (r = 0 ↔ c1 ≠ c2) := by
  rw [bitCount64_eq_bitSum] at hov
  by_cases h : bitSum 64 v = 0 ∨ bitSum 64 v = 64
  · refine ⟨_, _, _, _, equalize_special ovf v cells hv h hov,
      bitPopulationCount_eq _ (and_lt_U64_left _ _ hv),
      bitPopulationCount_eq _ (and_lt_U64_left _ _ hv), ?_, ?_⟩ <;>
    by_cases e : bitSum 64 (v &&& (2 ^ 32 - 1)) = bitSum 64 (v &&& not64 (2 ^ 32 - 1)) <;>
    simp [e]
  · have hle := bitSum_le 64 v
    have h0 : bitSum 64 v ≠ 0 := fun e => h (Or.inl e)
    have h64 : bitSum 64 v < 64 := by omega
    have hm : 2 ^ bitSum 64 v - 1 < U64 := by
      have := two_pow_lt_U64 _ h64
      omega
    refine ⟨_, _, _, _, equalize_general ovf v cells hv h0 h64,
      bitPopulationCount_eq _ (and_lt_U64_right _ _ hm),
      bitPopulationCount_eq _ (and_lt_U64_left _ _ hv), ?_, ?_⟩
    · exact ⟨fun _ => bitSum_balanced v, fun _ => rfl⟩
    · exact ⟨fun e => absurd e (by decide), fun e => absurd (bitSum_balanced v) e⟩

theorem equalize_returns_comparison_witness :
    66775235 < U64 ∧ ((none : Option Nat) = none → bitCount64 66775235 ≠ 64) ∧
    ∃ out r c1 c2, equalizePopulationCounts_solution none 66775235 (Cells.mk 0 0) =
        some (out, r) ∧
      bitPopulationCount out.subset1 = some c1 ∧
      bitPopulationCount out.subset2 = some c2 ∧
      (r = 1 ↔ c1 = c2) ∧ (r = 0 ↔ c1 ≠ c2) :=
  ⟨by decide, fun _ => by decide,
    equalize_returns_comparison none 66775235 (Cells.mk 0 0) (by decide)
      (fun _ => by decide)⟩

/-- C9: for every 64-bit `v` with `count = popcount v` and `0 < count < 64`,
whatever an oversized shift would do, the call computes `count`, the mask
`(1 << count) - 1 = 2 ^ count - 1`, and writes exactly
`subset1 = (~v) & mask` and `subset2 = v & ~mask`. -/
theorem equalize_general_case_outputs (ovf : Option Nat) (v : Nat) (cells : Cells)
    (hv : v < U64) (h0 : 0 < bitCount64 v) (h64 : bitCount64 v < 64) :
    bitPopulationCount v = some (bitCount64 v) ∧
    (shl64 ovf 1 (bitCount64 v)).map (fun sh => sub64 sh 1) = some (2 ^ bitCount64 v - 1) ∧
    ∃ r, equalizePopulationCounts_solution ovf v cells =
      some (Cells.mk (not64 v &&& (2 ^ bitCount64 v - 1))
        (v &&& not64 (2 ^ bitCount64 v - 1)), r) := by
  rw [bitCount64_eq_bitSum] at *
  exact ⟨bitPopulationCount_eq v hv, mask_eq ovf _ h64,
    1, equalize_general ovf v cells hv (by omega) h64⟩

theorem equalize_general_case_outputs_witness :
    66775235 < U64 ∧ 0 < bitCount64 66775235 ∧ bitCount64 66775235 < 64 ∧
    (bitPopulationCount 66775235 = some (bitCount64 66775235) ∧
    (shl64 none 1 (bitCount64 66775235)).map (fun sh => sub64 sh 1) =
      some (2 ^ bitCount64 66775235 - 1) ∧
    ∃ r, equalizePopulationCounts_solution none 66775235 (Cells.mk 0 0) =
      some (Cells.mk (not64 66775235 &&& (2 ^ bitCount64 66775235 - 1))
        (66775235 &&& not64 (2 ^ bitCount64 66775235 - 1)), r)) :=
  ⟨by decide, by decide, by decide,
    equalize_general_case_outputs none 66775235 (Cells.mk 0 0) (by decide) (by decide)
      (by decide)⟩

/-! ## Populations of the two parts in the general case -/

theorem lowSum_eq_bitSum (c v : Nat) : lowSum c v = bitSum 64 (v &&& (2 ^ c - 1)) := by
  unfold lowSum bitSum
  refine Finset.sum_congr rfl (fun i _ => ?_)
  rw [Nat.testBit_and, Nat.testBit_two_pow_sub_one]

/-- The population of `~v & mask` is the number of positions below `c` at which
`v` has a 0. -/
theorem bitSum_subset1_eq_zeros (v c : Nat) (hc : c ≤ 64) :
    bitSum 64 (not64 v &&& (2 ^ c - 1)) =
      ((Finset.range c).filter (fun i => v.testBit i = false)).card := by
  unfold bitSum
  have h : ∀ i ∈ Finset.range 64,
      ((not64 v &&& (2 ^ c - 1)).testBit i).toNat =
        if (i < c ∧ v.testBit i = false) then 1 else 0 := by
    intro i hi
    have hi64 : i < 64 := Finset.mem_range.mp hi
    rw [Nat.testBit_and, testBit_not64, Nat.testBit_two_pow_sub_one]
    cases v.testBit i <;> by_cases h : i < c <;> simp [h, hi64]
  rw [Finset.sum_congr rfl h, ← Finset.card_filter]
  congr 1
  ext i
  simp only [Finset.mem_filter, Finset.mem_range]
  constructor
  · rintro ⟨_, h1, h2⟩
    exact ⟨h1, h2⟩
  · rintro ⟨h1, h2⟩
    exact ⟨by omega, h1, h2⟩

/-- Populations of both parts in the general case, in terms of the ones of `v`
inside the window of the lowest `count` positions. -/
theorem populations_general (v : Nat) :
    bitSum 64 (v &&& (2 ^ bitSum 64 v - 1)) ≤ bitSum 64 v ∧
    bitSum 64 (not64 v &&& (2 ^ bitSum 64 v - 1)) =
      bitSum 64 v - bitSum 64 (v &&& (2 ^ bitSum 64 v - 1)) ∧
    bitSum 64 (v &&& not64 (2 ^ bitSum 64 v - 1)) =
      bitSum 64 v - bitSum 64 (v &&& (2 ^ bitSum 64 v - 1)) := by
  have h1 := bitSum_subset1 v (bitSum 64 v) (bitSum_le 64 v)
  have h2 := bitSum_subset2 v (bitSum 64 v)
  rw [lowSum_eq_bitSum] at h1 h2
  omega

/-- C13: for every 64-bit `v` with `count = popcount v`, `0 < count < 64` and
`mask = 2 ^ count - 1`, whatever an oversized shift would do, the call writes
`subset1 = (~v) & mask` and `subset2 = v & ~mask`; `bitPopulationCount` of each
returns `count - popcount (v & mask)` (a true difference, since
`popcount (v & mask) ≤ count`), and the population of `subset1` is the number
of positions below `count` at which `v` has a 0. -/
theorem populations_of_general_case (ovf : Option Nat) (v : Nat) (cells : Cells)
    (hv : v < U64) (h0 : 0 < bitCount64 v) (h64 : bitCount64 v < 64) :
    ∃ out r, equalizePopulationCounts_solution ovf v cells = some (out, r) ∧
      out.subset1 = not64 v &&& (2 ^ bitCount64 v - 1) ∧
      out.subset2 = v &&& not64 (2 ^ bitCount64 v - 1) ∧
      bitCount64 (v &&& (2 ^ bitCount64 v - 1)) ≤ bitCount64 v ∧
      bitPopulationCount out.subset1 =
        some (bitCount64 v - bitCount64 (v &&& (2 ^ bitCount64 v - 1))) ∧
      bitPopulationCount out.subset2 =
        some (bitCount64 v - bitCount64 (v &&& (2 ^ bitCount64 v - 1))) ∧
      bitCount64 out.subset1 =
        ((Finset.range (bitCount64 v)).filter (fun i => v.testBit i = false)).card := by
  simp only [bitCount64_eq_bitSum] at *
  have hm : 2 ^ bitSum 64 v - 1 < U64 := by
    have := two_pow_lt_U64 _ h64
    omega
  obtain ⟨hle, hp1, hp2⟩ := populations_general v
  refine ⟨_, _, equalize_general ovf v cells hv (by omega) h64, rfl, rfl, hle, ?_, ?_, ?_⟩
  · rw [bitPopulationCount_eq _ (and_lt_U64_right _ _ hm), hp1]
  · rw [bitPopulationCount_eq _ (and_lt_U64_left _ _ hv), hp2]
  · exact bitSum_subset1_eq_zeros v _ (bitSum_le 64 v)

theorem populations_of_general_case_witness :
    66775235 < U64 ∧ 0 < bitCount64 66775235 ∧ bitCount64 66775235 < 64 ∧
    ∃ out r, equalizePopulationCounts_solution none 66775235 (Cells.mk 0 0) =
        some (out, r) ∧
      out.subset1 = not64 66775235 &&& (2 ^ bitCount64 66775235 - 1) ∧
      out.subset2 = 66775235 &&& not64 (2 ^ bitCount64 66775235 - 1) ∧
      bitCount64 (66775235 &&& (2 ^ bitCount64 66775235 - 1)) ≤ bitCount64 66775235 ∧
      bitPopulationCount out.subset1 =
        some (bitCount64 66775235 -
          bitCount64 (66775235 &&& (2 ^ bitCount64 66775235 - 1))) ∧
      bitPopulationCount out.subset2 =
        some (bitCount64 66775235 -
          bitCount64 (66775235 &&& (2 ^ bitCount64 66775235 - 1))) ∧
      bitCount64 out.subset1 =
        ((Finset.range (bitCount64 66775235)).filter
          (fun i => (66775235 : Nat).testBit i = false)).card :=
  ⟨by decide, by decide, by decide,
    populations_of_general_case none 66775235 (Cells.mk 0 0) (by decide) (by decide)
      (by decide)⟩

/-- C14 (as stated, refuted): at `v = 1`, of population 1, the call writes
`subset1 = 0` and `subset2 = 0`; their populations are 0 and 0, which do not add
up to 1, and twice the population of `subset1` is not 1. -/
theorem populations_do_not_sum_to_count_at_one :
    bitPopulationCount 1 = some 1 ∧
    equalizePopulationCounts_solution none 1 (Cells.mk 0 0) = some (Cells.mk 0 0, 1) ∧
    bitPopulationCount (Cells.mk 0 0).subset1 = some 0 ∧
    bitPopulationCount (Cells.mk 0 0).subset2 = some 0 ∧
    0 + 0 ≠ 1 ∧ 2 * 0 ≠ 1 := by
  have h1 : (1 : Nat) < U64 := by unfold U64; norm_num
  have h0 : (0 : Nat) < U64 := by unfold U64; norm_num
  refine ⟨?_, ?_, ?_, ?_, by decide, by decide⟩
  · rw [bitPopulationCount_eq 1 h1]; decide
  · rw [equalize_general none 1 (Cells.mk 0 0) h1 (by decide) (by decide)]
    decide
  · show bitPopulationCount 0 = some 0
    rw [bitPopulationCount_eq 0 h0]; decide
  · show bitPopulationCount 0 = some 0
    rw [bitPopulationCount_eq 0 h0]; decide

/-- C14 (amended): for every 64-bit `v` with `count = popcount v` and
`0 < count < 64`, whatever an oversized shift would do, the two outputs have the
same population `p = count - popcount (v & mask)`, so that
`popcount subset1 + popcount subset2 = 2 * (count - popcount (v & mask))`; this
sum is `count` exactly when `2 * popcount (v & mask) = count`. -/
theorem populations_sum (ovf : Option Nat) (v : Nat) (cells : Cells)
    (hv : v < U64) (h0 : 0 < bitCount64 v) (h64 : bitCount64 v < 64) :
    ∃ out r p, equalizePopulationCounts_solution ovf v cells = some (out, r) ∧
      bitPopulationCount out.subset1 = some p ∧
      bitPopulationCount out.subset2 = some p ∧
      p + p = 2 * (bitCount64 v - bitCount64 (v &&& (2 ^ bitCount64 v - 1))) ∧
      (p + p = bitCount64 v ↔
        2 * bitCount64 (v &&& (2 ^ bitCount64 v - 1)) = bitCount64 v) := by
  simp only [bitCount64_eq_bitSum] at *
  have hm : 2 ^ bitSum 64 v - 1 < U64 := by
    have := two_pow_lt_U64 _ h64
    omega
  obtain ⟨hle, hp1, hp2⟩ := populations_general v
  refine ⟨_, _, bitSum 64 v - bitSum 64 (v &&& (2 ^ bitSum 64 v - 1)),
    equalize_general ovf v cells hv (by omega) h64, ?_, ?_, by omega, by omega⟩
  · rw [bitPopulationCount_eq _ (and_lt_U64_right _ _ hm), hp1]
  · rw [bitPopulationCount_eq _ (and_lt_U64_left _ _ hv), hp2]

theorem populations_sum_witness :
    66775235 < U64 ∧ 0 < bitCount64 66775235 ∧ bitCount64 66775235 < 64 ∧
    ∃ out r p, equalizePopulationCounts_solution none 66775235 (Cells.mk 0 0) =
        some (out, r) ∧
      bitPopulationCount out.subset1 = some p ∧
      bitPopulationCount out.subset2 = some p ∧
      p + p = 2 * (bitCount64 66775235 -
        bitCount64 (66775235 &&& (2 ^ bitCount64 66775235 - 1))) ∧
      (p + p = bitCount64 66775235 ↔
        2 * bitCount64 (66775235 &&& (2 ^ bitCount64 66775235 - 1)) =
          bitCount64 66775235) :=
  ⟨by decide, by decide, by decide,
    populations_sum none 66775235 (Cells.mk 0 0) (by decide) (by decide) (by decide)⟩

end Mosh

namespace Train3

/-! ## Lemmas on memory and on lists in memory -/

theorem isSeg_congr {heap heap' : Nat → Node} :
    ∀ (xs : List Nat) (p q : Ptr), (∀ x ∈ xs, heap' x = heap x) →
      isSeg heap p xs q → isSeg heap' p xs q
  | [], _, _, _, h => h
  | x :: xs, _, _, hf, h =>
    ⟨h.1, by
      rw [hf x (List.mem_cons_self x xs)]
      exact isSeg_congr xs _ _ (fun y hy => hf y (List.mem_cons_of_mem x hy)) h.2⟩

theorem isList_congr {heap heap' : Nat → Node} (xs : List Nat) (p : Ptr)
    (hf : ∀ x ∈ xs, heap' x = heap x) (h : isList heap p xs) : isList heap' p xs :=
  isSeg_congr xs p none hf h

theorem write_next_node (m : Mem) (t : Nat) (v : Ptr) :
    (m.write (Ref.next t) v).node = Function.update m.node t { m.node t with next := v } :=
  rfl

theorem write_next_var (m : Mem) (t : Nat) (v : Ptr) :
    (m.write (Ref.next t) v).var = m.var := rfl

theorem write_var_node (m : Mem) (i : Nat) (v : Ptr) :
    (m.write (Ref.var i) v).node = m.node := rfl

theorem write_var_var (m : Mem) (i : Nat) (v : Ptr) :
    (m.write (Ref.var i) v).var = Function.update m.var i v := rfl

/-- Effect of `MoveNode(&(t->next), &x)` for a variable `x` holding the
non-null pointer `n`. -/
theorem MoveNode_next_var (m : Mem) (t i n : Nat) (h : m.var i = some n) :
    MoveNode (Ref.next t) (Ref.var i) m =
      Except.ok
        { node := Function.update
            (Function.update m.node n { m.node n with next := (m.node t).next })
            t { Function.update m.node n { m.node n with next := (m.node t).next } t
                with next := some n },
          var := Function.update m.var i (m.node n).next } := by
  unfold MoveNode
  have hr : m.read (Ref.var i) = some n := h
  rw [hr]
  rfl

theorem loop_stop_left (fuel : Nat) (m : Mem) (tail : Ptr) (h : m.var varA = none) :
    SortedMerge_loop fuel m tail = Except.ok (m, tail) := by
  unfold SortedMerge_loop
  rw [h]

theorem loop_stop_right (fuel : Nat) (m : Mem) (tail : Ptr) (h : m.var varB = none) :
    SortedMerge_loop fuel m tail = Except.ok (m, tail) := by
  unfold SortedMerge_loop
  rw [h]
  cases m.var varA <;> rfl

theorem loop_step (fuel : Nat) (m : Mem) (t a b : Nat)
    (ha : m.var varA = some a) (hb : m.var varB = some b) :
    SortedMerge_loop (fuel + 1) m (some t) =
      match (if (m.node a).data ≤ (m.node b).data
             then MoveNode (Ref.next t) (Ref.var varA) m
             else MoveNode (Ref.next t) (Ref.var varB) m) with
      | Except.error e => Except.error e
      | Except.ok m => SortedMerge_loop fuel m (m.node t).next := by
  rw [SortedMerge_loop, ha, hb]

/-- What `MoveNode(&(t->next), &x)` does when the variable `x` holds the
non-null pointer `n`: `x` advances to `n->next`, `t->next` becomes `n`, no
`data` field changes, and no node other than `t` and `n` changes. -/
theorem MoveNode_next_var_spec (m : Mem) (t i n : Nat) (h : m.var i = some n) :
    ∃ m3, MoveNode (Ref.next t) (Ref.var i) m = Except.ok m3 ∧
      m3.var = Function.update m.var i (m.node n).next ∧
      (m3.node t).next = some n ∧
      (∀ p, (m3.node p).data = (m.node p).data) ∧
      (∀ p, p ≠ t → p ≠ n → m3.node p = m.node p) := by
  refine ⟨_, MoveNode_next_var m t i n h, rfl, ?_, ?_, ?_⟩
  · simp
  · intro p
    by_cases hpt : p = t
    · subst hpt
      by_cases hpn : p = n
      · subst hpn; simp
      · simp [Function.update_noteq hpn]
    · by_cases hpn : p = n
      · subst hpn; simp [Function.update_noteq hpt]
      · simp [Function.update_noteq hpt, Function.update_noteq hpn]
  · intro p hpt hpn
    simp [Function.update_noteq hpt, Function.update_noteq hpn]

theorem linkRest_none (i : Nat) (m : Mem) (tail : Ptr) (h : m.var i = none) :
    linkRest i m tail = Except.ok m := by
  unfold linkRest
  rw [h]

theorem linkRest_some (i : Nat) (m : Mem) (t n : Nat) (h : m.var i = some n) :
    linkRest i m (some t) = Except.ok (m.write (Ref.next t) (some n)) := by
  unfold linkRest
  rw [h]

theorem write_next_same (m : Mem) (t : Nat) (v : Ptr) :
    ((m.write (Ref.next t) v).node t).next = v := by
  rw [write_next_node, Function.update_same]

theorem write_next_data (m : Mem) (t : Nat) (v : Ptr) (p : Nat) :
    ((m.write (Ref.next t) v).node p).data = (m.node p).data := by
  rw [write_next_node]
  by_cases hp : p = t
  · subst hp; rw [Function.update_same]
  · rw [Function.update_noteq hp]

theorem write_next_ne (m : Mem) (t : Nat) (v : Ptr) (p : Nat) (hp : p ≠ t) :
    (m.write (Ref.next t) v).node p = m.node p := by
  rw [write_next_node, Function.update_noteq hp]

/-- When the loop leaves with the list in variable `i` non-empty and the other
variable `NULL`, the two conditional assignments link that list after `t`. -/
theorem body_one_empty (fuel : Nat) (m : Mem) (t : Nat) (i j : Nat)
    (hij : (i = varA ∧ j = varB) ∨ (i = varB ∧ j = varA))
    (y : Nat) (ys : List Nat)
    (hi : isList m.node (m.var i) (y :: ys)) (hj : m.var j = none)
    (ht : t ∉ y :: ys) :
    ∃ m', SortedMerge_body fuel m (some t) = Except.ok m' ∧
      isList m'.node (m'.node t).next (y :: ys) ∧
      (∀ p, (m'.node p).data = (m.node p).data) ∧
      (∀ p, p ≠ t → m'.node p = m.node p) := by
  have hy : m.var i = some y := hi.1
  refine ⟨m.write (Ref.next t) (some y), ?_, ?_, write_next_data m t _, write_next_ne m t _⟩
  · unfold SortedMerge_body
    rcases hij with ⟨rfl, rfl⟩ | ⟨rfl, rfl⟩
    · rw [loop_stop_right fuel m _ hj]
      simp only
      rw [linkRest_some varA m t y hy]
      simp only
      rw [linkRest_none varB _ _ (by rw [write_next_var]; exact hj)]
    · rw [loop_stop_left fuel m _ hj]
      simp only
      rw [linkRest_none varA m _ hj]
      simp only
      rw [linkRest_some varB m t y hy]
  · unfold isList
    rw [write_next_same, ← hy]
    apply isSeg_congr (y :: ys) _ _ _ hi
    intro x hx
    exact write_next_ne m t _ x (fun e => ht (e ▸ hx))

theorem leData_congr (heap heap' : Nat → Node)
    (h : ∀ p, (heap' p).data = (heap p).data) : leData heap' = leData heap := by
  funext x y
  unfold leData
  rw [h x, h y]

theorem body_of_loop_step (fuel : Nat) (m m3 : Mem) (t a b : Nat) (i : Nat)
    (ha : m.var varA = some a) (hb : m.var varB = some b)
    (hif : (if (m.node a).data ≤ (m.node b).data
             then MoveNode (Ref.next t) (Ref.var varA) m
             else MoveNode (Ref.next t) (Ref.var varB) m) = Except.ok m3)
    (hnext : (m3.node t).next = some i) :
    SortedMerge_body (fuel + 1) m (some t) = SortedMerge_body fuel m3 (some i) := by
  unfold SortedMerge_body
  rw [loop_step fuel m t a b ha hb, hif]
  simp only
  rw [hnext]

/-- Lines 30-50 of `SortedMerge`, started with `tail = t`, the variables `a`
and `b` holding disjoint lists `as` and `bs` that avoid `t` and are not both
empty: the run ends, `t->next` is the list `List.merge as bs` (by `data`), no
`data` field changes, and only `t` and the nodes of the two lists change. -/
theorem SortedMerge_body_spec :
    ∀ (fuel : Nat) (as bs : List Nat) (m : Mem) (t : Nat),
      isList m.node (m.var varA) as → isList m.node (m.var varB) bs →
      (t :: (as ++ bs)).Nodup → (as ≠ [] ∨ bs ≠ []) → as.length + bs.length ≤ fuel →
      ∃ m', SortedMerge_body fuel m (some t) = Except.ok m' ∧
        isList m'.node (m'.node t).next (List.merge as bs (leData m.node)) ∧
        (∀ p, (m'.node p).data = (m.node p).data) ∧
        (∀ p, p ≠ t → p ∉ as → p ∉ bs → m'.node p = m.node p) := by
  intro fuel
  induction fuel with
  | zero =>
    intro as bs m t _ _ _ hne hf
    have h1 : as = [] := List.length_eq_zero.mp (by omega)
    have h2 : bs = [] := List.length_eq_zero.mp (by omega)
    rcases hne with h | h
    · exact absurd h1 h
    · exact absurd h2 h
  | succ fuel ih =>
    intro as bs m t ha hb hnd hne hf
    cases as with
    | nil =>
      cases bs with
      | nil => rcases hne with h | h <;> exact absurd rfl h
      | cons y ys =>
        have hA : m.var varA = none := ha
        have ht : t ∉ y :: ys := by
          have := (List.nodup_cons.mp hnd).1
          simpa using this
        obtain ⟨m', h1, h2, h3, h4⟩ :=
          body_one_empty (fuel + 1) m t varB varA (Or.inr ⟨rfl, rfl⟩) y ys hb hA ht
        refine ⟨m', h1, ?_, h3, fun p hp _ _ => h4 p hp⟩
        rw [List.nil_merge]
        exact h2
    | cons x xs =>
      cases bs with
      | nil =>
        have hB : m.var varB = none := hb
        have ht : t ∉ x :: xs := by
          have := (List.nodup_cons.mp hnd).1
          simpa using this
        obtain ⟨m', h1, h2, h3, h4⟩ :=
          body_one_empty (fuel + 1) m t varA varB (Or.inl ⟨rfl, rfl⟩) x xs ha hB ht
        refine ⟨m', h1, ?_, h3, fun p hp _ _ => h4 p hp⟩
        rw [List.merge_right]
        exact h2
      | cons y ys =>
        have hA : m.var varA = some x := ha.1
        have hB : m.var varB = some y := hb.1
        have htn : t ∉ x :: xs ++ y :: ys := (List.nodup_cons.mp hnd).1
        have hnd' : (x :: xs ++ y :: ys).Nodup := (List.nodup_cons.mp hnd).2
        have hAB : varA ≠ varB := by decide
        by_cases hle : (m.node x).data ≤ (m.node y).data
        · obtain ⟨m3, hmv, hvar, hnext, hdata, hframe⟩ :=
            MoveNode_next_var_spec m t varA x hA
          have hif : (if (m.node x).data ≤ (m.node y).data
              then MoveNode (Ref.next t) (Ref.var varA) m
              else MoveNode (Ref.next t) (Ref.var varB) m) = Except.ok m3 := by
            rw [if_pos hle]; exact hmv
          have hstep := body_of_loop_step fuel m m3 t x y x hA hB hif hnext
          have hx_notin : x ∉ xs ++ y :: ys := by
            have := (List.nodup_cons.mp hnd').1
            simpa using this
          have hsame : ∀ z ∈ xs ++ y :: ys, m3.node z = m.node z := by
            intro z hz
            apply hframe z
            · intro e; subst e
              exact htn (List.mem_cons_of_mem x hz)
            · intro e; subst e
              exact hx_notin hz
          have ha3 : isList m3.node (m3.var varA) xs := by
            rw [hvar, Function.update_same]
            exact isList_congr xs _ (fun z hz => hsame z (List.mem_append_left _ hz)) ha.2
          have hb3 : isList m3.node (m3.var varB) (y :: ys) := by
            rw [hvar, Function.update_noteq hAB.symm]
            exact isList_congr (y :: ys) _
              (fun z hz => hsame z (List.mem_append_right _ hz)) hb
          obtain ⟨m', hrun, hlist, hdata', hframe'⟩ :=
            ih xs (y :: ys) m3 x ha3 hb3 hnd' (Or.inr (List.cons_ne_nil y ys))
              (by simp only [List.length_cons] at hf ⊢; omega)
          have htx : t ≠ x := fun e => htn (e ▸ List.mem_cons_self x _)
          have ht_xs : t ∉ xs := fun h =>
            htn (List.mem_cons_of_mem x (List.mem_append_left _ h))
          have ht_ys : t ∉ y :: ys := fun h =>
            htn (List.mem_cons_of_mem x (List.mem_append_right _ h))
          refine ⟨m', by rw [hstep]; exact hrun, ?_, ?_, ?_⟩
          · have hm : List.merge (x :: xs) (y :: ys) (leData m.node) =
                x :: List.merge xs (y :: ys) (leData m.node) :=
              List.cons_merge_cons_pos _ _ _ (by unfold leData; exact decide_eq_true hle)
            rw [hm, hframe' t htx ht_xs ht_ys]
            refine ⟨hnext, ?_⟩
            rw [← leData_congr m.node m3.node hdata]
            exact hlist
          · intro p; rw [hdata' p, hdata p]
          · intro p hpt hpx hpy
            have hpx' : p ≠ x := fun e => hpx (e ▸ List.mem_cons_self x _)
            rw [hframe' p hpx' (fun h => hpx (List.mem_cons_of_mem x h)) hpy,
              hframe p hpt hpx']
        · obtain ⟨m3, hmv, hvar, hnext, hdata, hframe⟩ :=
            MoveNode_next_var_spec m t varB y hB
          have hif : (if (m.node x).data ≤ (m.node y).data
              then MoveNode (Ref.next t) (Ref.var varA) m
              else MoveNode (Ref.next t) (Ref.var varB) m) = Except.ok m3 := by
            rw [if_neg hle]; exact hmv
          have hstep := body_of_loop_step fuel m m3 t x y y hA hB hif hnext
          have hperm : (y :: (x :: xs ++ ys)).Perm (x :: xs ++ y :: ys) :=
            (List.perm_middle).symm
          have hnd2 : (y :: (x :: xs ++ ys)).Nodup := hperm.nodup_iff.mpr hnd'
          have hy_notin : y ∉ x :: xs ++ ys := (List.nodup_cons.mp hnd2).1
          have hsame : ∀ z ∈ x :: xs ++ ys, m3.node z = m.node z := by
            intro z hz
            apply hframe z
            · intro e; subst e
              exact htn (hperm.subset (List.mem_cons_of_mem y hz))
            · intro e; subst e
              exact hy_notin hz
          have ha3 : isList m3.node (m3.var varA) (x :: xs) := by
            rw [hvar, Function.update_noteq hAB]
            exact isList_congr (x :: xs) _
              (fun z hz => hsame z (List.mem_append_left _ hz)) ha
          have hb3 : isList m3.node (m3.var varB) ys := by
            rw [hvar, Function.update_same]
            exact isList_congr ys _ (fun z hz => hsame z (List.mem_append_right _ hz)) hb.2
          obtain ⟨m', hrun, hlist, hdata', hframe'⟩ :=
            ih (x :: xs) ys m3 y ha3 hb3 hnd2 (Or.inl (List.cons_ne_nil x xs))
              (by simp only [List.length_cons] at hf ⊢; omega)
          have hty : t ≠ y := fun e =>
            htn (by rw [e]; exact List.mem_append_right _ (List.mem_cons_self y ys))
          have ht_xs : t ∉ x :: xs := fun h => htn (List.mem_append_left _ h)
          have ht_ys : t ∉ ys := fun h =>
            htn (List.mem_append_right _ (List.mem_cons_of_mem y h))
          refine ⟨m', by rw [hstep]; exact hrun, ?_, ?_, ?_⟩
          · have hm : List.merge (x :: xs) (y :: ys) (leData m.node) =
                y :: List.merge (x :: xs) ys (leData m.node) :=
              List.cons_merge_cons_neg _ _ _ (by unfold leData; simpa using hle)
            rw [hm, hframe' t hty ht_xs ht_ys]
            refine ⟨hnext, ?_⟩
            rw [← leData_congr m.node m3.node hdata]
            exact hlist
          · intro p; rw [hdata' p, hdata p]
          · intro p hpt hpx hpy
            have hpy' : p ≠ y := fun e => hpy (e ▸ List.mem_cons_self y _)
            rw [hframe' p hpy' hpx (fun h => hpy (List.mem_cons_of_mem y h)),
              hframe p hpt hpy']

/-- Functional description of `SortedMerge` on two disjoint lists that avoid
the address of `dummy` and are not both empty. -/
theorem SortedMerge_spec (fuel : Nat) (heap : Nat → Node) (dummy : Nat) (a b : Ptr)
    (as bs : List Nat) (ha : isList heap a as) (hb : isList heap b bs)
    (hnd : (dummy :: (as ++ bs)).Nodup) (hne : as ≠ [] ∨ bs ≠ [])
    (hfuel : as.length + bs.length ≤ fuel) :
    ∃ heap' r, SortedMerge fuel heap dummy a b = Except.ok (heap', r) ∧
      isList heap' r (List.merge as bs (leData heap)) ∧
      (∀ p, (heap' p).data = (heap p).data) ∧
      (∀ p, p ≠ dummy → p ∉ as → p ∉ bs → heap' p = heap p) := by
  obtain ⟨m', hrun, hlist, hdata, hframe⟩ :=
    SortedMerge_body_spec fuel as bs
      { node := heap, var := fun i => if i = varA then a else if i = varB then b else none }
      dummy ha hb hnd hne hfuel
  refine ⟨m'.node, (m'.node dummy).next, ?_, hlist, hdata, hframe⟩
  unfold SortedMerge
  simp only
  rw [hrun]

theorem printList_of_isList (heap : Nat → Node) :
    ∀ (xs : List Nat) (p : Ptr) (fuel : Nat), isList heap p xs → xs.length ≤ fuel →
      printList fuel heap p = some (dataOf heap xs)
  | [], p, fuel, h, _ => by
    have hp : p = none := h
    subst hp
    cases fuel <;> rfl
  | x :: xs, p, fuel, h, hf => by
    have hp : p = some x := h.1
    subst hp
    cases fuel with
    | zero => simp at hf
    | succ fuel =>
      have ih := printList_of_isList heap xs (heap x).next fuel h.2
        (by simp only [List.length_cons] at hf; omega)
      simp only [printList, ih, Option.map_some', dataOf, List.map_cons]

theorem sorted_dataOf_merge (heap heap' : Nat → Node) (as bs : List Nat)
    (hdata : ∀ p, (heap' p).data = (heap p).data)
    (hsa : (dataOf heap as).Sorted (· ≤ ·)) (hsb : (dataOf heap bs).Sorted (· ≤ ·)) :
    (dataOf heap' (List.merge as bs (leData heap))).Sorted (· ≤ ·) := by
  unfold dataOf List.Sorted at *
  rw [List.pairwise_map] at hsa hsb ⊢
  have hA : as.Pairwise (fun x y => leData heap x y = true) :=
    hsa.imp (fun h => by unfold leData; exact decide_eq_true h)
  have hB : bs.Pairwise (fun x y => leData heap x y = true) :=
    hsb.imp (fun h => by unfold leData; exact decide_eq_true h)
  have hM := @List.sorted_merge Nat (leData heap)
    (fun x y z hxy hyz => by
      unfold leData at *
      exact decide_eq_true (le_trans (of_decide_eq_true hxy) (of_decide_eq_true hyz)))
    (fun x y => by
      unfold leData
      rcases le_total (heap x).data (heap y).data with h | h <;> simp [h])
    as bs hA hB
  exact hM.imp (fun {x y} h => by
    rw [hdata x, hdata y]
    unfold leData at h
    exact of_decide_eq_true h)

theorem isSeg_unique (heap : Nat → Node) :
    ∀ (xs ys : List Nat) (p : Ptr), isSeg heap p xs none → isSeg heap p ys none → xs = ys
  | [], [], _, _, _ => rfl
  | [], y :: ys, p, h1, h2 => by
    have e1 : p = none := h1
    have e2 : p = some y := h2.1
    rw [e1] at e2
    exact absurd e2 (by simp)
  | x :: xs, [], p, h1, h2 => by
    have e1 : p = some x := h1.1
    have e2 : p = none := h2
    rw [e1] at e2
    exact absurd e2 (by simp)
  | x :: xs, y :: ys, p, h1, h2 => by
    have e1 : p = some x := h1.1
    have e2 : p = some y := h2.1
    rw [e1] at e2
    have exy : x = y := Option.some.inj e2
    subst exy
    rw [isSeg_unique heap xs ys _ h1.2 h2.2]

theorem isSeg_drop (heap : Nat → Node) :
    ∀ (l1 l2 : List Nat) (x : Nat) (p : Ptr), isSeg heap p (l1 ++ x :: l2) none →
      isSeg heap (heap x).next l2 none
  | [], _, _, _, h => h.2
  | _ :: l1, l2, x, _, h => isSeg_drop heap l1 l2 x _ h.2

/-- A `NULL`-terminated list visits no address twice. -/
theorem isList_nodup (heap : Nat → Node) :
    ∀ (xs : List Nat) (p : Ptr), isList heap p xs → xs.Nodup
  | [], _, _ => List.nodup_nil
  | x :: xs, _, h => by
    have hrest : isList heap (heap x).next xs := h.2
    refine List.nodup_cons.mpr ⟨?_, isList_nodup heap xs _ hrest⟩
    intro hx
    obtain ⟨l1, l2, e⟩ := List.append_of_mem hx
    have h2 : isSeg heap (heap x).next l2 none := by
      apply isSeg_drop heap l1 l2 x (heap x).next
      rw [← e]; exact hrest
    have hu := isSeg_unique heap xs l2 _ hrest h2
    have hl := congrArg List.length e
    rw [hu] at hl
    simp only [List.length_append, List.length_cons] at hl
    omega

theorem nodup_of_lists (heap : Nat → Node) (dummy : Nat) (a b : Ptr) (as bs : List Nat)
    (ha : isList heap a as) (hb : isList heap b bs)
    (hdis : ∀ x ∈ as, x ∉ bs) (hd : dummy ∉ as ∧ dummy ∉ bs) :
    (dummy :: (as ++ bs)).Nodup := by
  refine List.nodup_cons.mpr ⟨?_, ?_⟩
  · intro h
    rcases List.mem_append.mp h with h | h
    · exact hd.1 h
    · exact hd.2 h
  · exact List.nodup_append.mpr
      ⟨isList_nodup heap as a ha, isList_nodup heap bs b hb, fun {x} hx hx' => hdis x hx hx'⟩

/-! ## The claims about `src/train3.c` -/

/-- C10: for every two lists `a` and `b` in memory (sharing no node, and not
containing the local `dummy`), each sorted in non-decreasing order of `data`
and not both empty, `SortedMerge(a, b)` returns, given fuel for
`length a + length b` iterations, and the list it returns is sorted in
non-decreasing order of `data`; `printList` prints exactly its values. On the
lists of `main`, `a = 5->10->15` and `b = 2->3->20`, the result is
`2->3->5->10->15->20`. -/
theorem SortedMerge_sorted (fuel : Nat) (heap : Nat → Node) (dummy : Nat) (a b : Ptr)
    (as bs : List Nat) (ha : isList heap a as) (hb : isList heap b bs)
    (hdis : ∀ x ∈ as, x ∉ bs) (hd : dummy ∉ as ∧ dummy ∉ bs)
    (hsa : (dataOf heap as).Sorted (· ≤ ·)) (hsb : (dataOf heap bs).Sorted (· ≤ ·))
    (hne : as ≠ [] ∨ bs ≠ []) (hfuel : as.length + bs.length ≤ fuel) :
    (∃ heap' r rs, SortedMerge fuel heap dummy a b = Except.ok (heap', r) ∧
      isList heap' r rs ∧
      printList rs.length heap' r = some (dataOf heap' rs) ∧
      (dataOf heap' rs).Sorted (· ≤ ·)) ∧
    (match SortedMerge 6 mainHeap 0 (some 1) (some 4) with
      | Except.ok (h, r) => printList 6 h r
      | Except.error _ => none) = some [2, 3, 5, 10, 15, 20] := by
  obtain ⟨heap', r, hrun, hlist, hdata, _⟩ :=
    SortedMerge_spec fuel heap dummy a b as bs ha hb
      (nodup_of_lists heap dummy a b as bs ha hb hdis hd) hne hfuel
  exact ⟨⟨heap', r, _, hrun, hlist,
    printList_of_isList heap' _ r _ hlist (le_refl _),
    sorted_dataOf_merge heap heap' as bs hdata hsa hsb⟩, by decide⟩

theorem SortedMerge_sorted_witness :
    isList mainHeap (some 1) [1, 2, 3] ∧ isList mainHeap (some 4) [4, 5, 6] ∧
    (∀ x ∈ [1, 2, 3], x ∉ [4, 5, 6]) ∧ (0 ∉ [1, 2, 3] ∧ 0 ∉ [4, 5, 6]) ∧
    (dataOf mainHeap [1, 2, 3]).Sorted (· ≤ ·) ∧
    (dataOf mainHeap [4, 5, 6]).Sorted (· ≤ ·) ∧
    (∃ heap' r rs, SortedMerge 6 mainHeap 0 (some 1) (some 4) = Except.ok (heap', r) ∧
      isList heap' r rs ∧
      printList rs.length heap' r = some (dataOf heap' rs) ∧
      (dataOf heap' rs).Sorted (· ≤ ·)) :=
  ⟨⟨rfl, rfl, rfl, rfl⟩, ⟨rfl, rfl, rfl, rfl⟩, by decide, by decide, by decide, by decide,
    (SortedMerge_sorted 6 mainHeap 0 (some 1) (some 4) [1, 2, 3] [4, 5, 6]
      ⟨rfl, rfl, rfl, rfl⟩ ⟨rfl, rfl, rfl, rfl⟩ (by decide) (by decide) (by decide)
      (by decide) (Or.inl (by decide)) (by decide)).1⟩

/-- C11: for every two lists `a` and `b` in memory (sharing no node, and not
containing the local `dummy`), sorted or not, that are not both empty,
`SortedMerge(a, b)` returns, given fuel for `length a + length b` iterations, a
`NULL`-terminated list that visits exactly the nodes of `a` and of `b`, each
once: its addresses are a permutation without repetition of those of `a`
followed by those of `b`, its data values are a permutation of the values of `a`
followed by the values of `b`, and its length is `length a + length b`. -/
theorem SortedMerge_permutation (fuel : Nat) (heap : Nat → Node) (dummy : Nat) (a b : Ptr)
    (as bs : List Nat) (ha : isList heap a as) (hb : isList heap b bs)
    (hdis : ∀ x ∈ as, x ∉ bs) (hd : dummy ∉ as ∧ dummy ∉ bs)
    (hne : as ≠ [] ∨ bs ≠ []) (hfuel : as.length + bs.length ≤ fuel) :
    ∃ heap' r rs, SortedMerge fuel heap dummy a b = Except.ok (heap', r) ∧
      isList heap' r rs ∧
      rs.Perm (as ++ bs) ∧ rs.Nodup ∧
      (dataOf heap' rs).Perm (dataOf heap as ++ dataOf heap bs) ∧
      rs.length = as.length + bs.length ∧
      printList (as.length + bs.length) heap' r = some (dataOf heap' rs) := by
  obtain ⟨heap', r, hrun, hlist, hdata, _⟩ :=
    SortedMerge_spec fuel heap dummy a b as bs ha hb
      (nodup_of_lists heap dummy a b as bs ha hb hdis hd) hne hfuel
  have hperm : (List.merge as bs (leData heap)).Perm (as ++ bs) :=
    List.merge_perm_append (leData heap)
  have hlen : (List.merge as bs (leData heap)).length = as.length + bs.length := by
    rw [hperm.length_eq, List.length_append]
  refine ⟨heap', r, _, hrun, hlist, hperm, isList_nodup heap' _ r hlist, ?_, hlen, ?_⟩
  · have e : dataOf heap' (List.merge as bs (leData heap)) =
        dataOf heap (List.merge as bs (leData heap)) := by
      unfold dataOf
      exact List.map_congr_left (fun p _ => hdata p)
    rw [e]
    unfold dataOf
    rw [← List.map_append]
    exact hperm.map _
  · exact printList_of_isList heap' _ r _ hlist (le_of_eq hlen)

theorem SortedMerge_permutation_witness :
    isList mainHeap (some 1) [1, 2, 3] ∧ isList mainHeap (some 4) [4, 5, 6] ∧
    (∀ x ∈ [1, 2, 3], x ∉ [4, 5, 6]) ∧ (0 ∉ [1, 2, 3] ∧ 0 ∉ [4, 5, 6]) ∧
    ∃ heap' r rs, SortedMerge 6 mainHeap 0 (some 1) (some 4) = Except.ok (heap', r) ∧
      isList heap' r rs ∧
      rs.Perm ([1, 2, 3] ++ [4, 5, 6]) ∧ rs.Nodup ∧
      (dataOf heap' rs).Perm (dataOf mainHeap [1, 2, 3] ++ dataOf mainHeap [4, 5, 6]) ∧
      rs.length = [1, 2, 3].length + [4, 5, 6].length ∧
      printList ([1, 2, 3].length + [4, 5, 6].length) heap' r = some (dataOf heap' rs) :=
  ⟨⟨rfl, rfl, rfl, rfl⟩, ⟨rfl, rfl, rfl, rfl⟩, by decide, by decide,
    SortedMerge_permutation 6 mainHeap 0 (some 1) (some 4) [1, 2, 3] [4, 5, 6]
      ⟨rfl, rfl, rfl, rfl⟩ ⟨rfl, rfl, rfl, rfl⟩ (by decide) (by decide)
      (Or.inl (by decide)) (by decide)⟩

/-- Effect of `MoveNode(&d, &s)` for two pointer variables, `s` holding the
non-null pointer `n`. -/
theorem MoveNode_var_var (m : Mem) (i j n : Nat) (h : m.var j = some n) :
    MoveNode (Ref.var i) (Ref.var j) m =
      Except.ok
        { node := Function.update m.node n
            { m.node n with next := Function.update m.var j (m.node n).next i },
          var := Function.update (Function.update m.var j (m.node n).next) i (some n) } := by
  unfold MoveNode
  have hr : m.read (Ref.var j) = some n := h
  rw [hr]
  rfl

/-- C12: for every non-empty `source` list `x :: xs` and every `dest` list `d`
(two distinct variables, `x` not a node of `d`), `MoveNode(&dest, &source)`
returns and leaves `source == xs` and `dest == x :: d`; no `data` field, no
node other than `x` and no other variable changes. On the memory of the comment,
`source == {1, 2, 3}` and `dest == {1, 2, 3}` become `source == {2, 3}` and
`dest == {1, 1, 2, 3}`. -/
theorem MoveNode_moves_front (m : Mem) (i j x : Nat) (xs d : List Nat) (hij : i ≠ j)
    (hs : isList m.node (m.var j) (x :: xs)) (hdst : isList m.node (m.var i) d)
    (hx : x ∉ d) :
    (∃ m', MoveNode (Ref.var i) (Ref.var j) m = Except.ok m' ∧
      isList m'.node (m'.var j) xs ∧ isList m'.node (m'.var i) (x :: d) ∧
      dataOf m'.node xs = dataOf m.node xs ∧
      dataOf m'.node (x :: d) = (m.node x).data :: dataOf m.node d ∧
      (∀ p, (m'.node p).data = (m.node p).data) ∧
      (∀ p, p ≠ x → m'.node p = m.node p) ∧
      (∀ k, k ≠ i → k ≠ j → m'.var k = m.var k)) ∧
    (match MoveNode (Ref.var 0) (Ref.var 1) moveMem with
      | Except.ok m' => (printList 3 m'.node (m'.var 1), printList 4 m'.node (m'.var 0))
      | Except.error _ => (none, none)) = (some [2, 3], some [1, 1, 2, 3]) := by
  have hj : m.var j = some x := hs.1
  have hxs : x ∉ xs := (List.nodup_cons.mp (isList_nodup m.node (x :: xs) _ hs)).1
  have hnode : ∀ p, p ≠ x →
      Function.update m.node x
        { m.node x with next := Function.update m.var j (m.node x).next i } p = m.node p :=
    fun p hp => Function.update_noteq hp _ _
  have hdata : ∀ p,
      (Function.update m.node x
        { m.node x with next := Function.update m.var j (m.node x).next i } p).data =
        (m.node p).data := by
    intro p
    by_cases hp : p = x
    · subst hp; rw [Function.update_same]
    · rw [hnode p hp]
  refine ⟨⟨_, MoveNode_var_var m i j x hj, ?_, ?_, ?_, ?_, hdata, hnode, ?_⟩, by decide⟩
  · show isList _ (Function.update (Function.update m.var j (m.node x).next) i (some x) j) xs
    rw [Function.update_noteq (Ne.symm hij), Function.update_same]
    exact isList_congr xs _ (fun z hz => hnode z (fun e => hxs (e ▸ hz))) hs.2
  · show isList _ (Function.update (Function.update m.var j (m.node x).next) i (some x) i)
      (x :: d)
    rw [Function.update_same]
    refine ⟨rfl, ?_⟩
    dsimp only
    rw [Function.update_same]
    dsimp only
    rw [Function.update_noteq hij]
    exact isList_congr d _
      (fun z hz => Function.update_noteq (fun (e : z = x) => hx (e ▸ hz)) _ _) hdst
  · unfold dataOf
    exact List.map_congr_left (fun p _ => hdata p)
  · unfold dataOf
    rw [List.map_cons, hdata x]
    congr 1
    exact List.map_congr_left (fun p _ => hdata p)
  · intro k hki hkj
    show Function.update (Function.update m.var j (m.node x).next) i (some x) k = m.var k
    rw [Function.update_noteq hki, Function.update_noteq hkj]

theorem MoveNode_moves_front_witness :
    (0 : Nat) ≠ 1 ∧ isList moveMem.node (moveMem.var 1) (1 :: [2, 3]) ∧
    isList moveMem.node (moveMem.var 0) [4, 5, 6] ∧ 1 ∉ [4, 5, 6] ∧
    ∃ m', MoveNode (Ref.var 0) (Ref.var 1) moveMem = Except.ok m' ∧
      isList m'.node (m'.var 1) [2, 3] ∧ isList m'.node (m'.var 0) (1 :: [4, 5, 6]) ∧
      dataOf m'.node [2, 3] = dataOf moveMem.node [2, 3] ∧
      dataOf m'.node (1 :: [4, 5, 6]) =
        (moveMem.node 1).data :: dataOf moveMem.node [4, 5, 6] ∧
      (∀ p, (m'.node p).data = (moveMem.node p).data) ∧
      (∀ p, p ≠ 1 → m'.node p = moveMem.node p) ∧
      (∀ k, k ≠ 0 → k ≠ 1 → m'.var k = moveMem.var k) :=
  ⟨by decide, ⟨rfl, rfl, rfl, rfl⟩, ⟨rfl, rfl, rfl, rfl⟩, by decide,
    (MoveNode_moves_front moveMem 0 1 1 [2, 3] [4, 5, 6] (by decide)
      ⟨rfl, rfl, rfl, rfl⟩ ⟨rfl, rfl, rfl, rfl⟩ (by decide)).1⟩

theorem loop_no_assertion :
    ∀ (fuel : Nat) (m : Mem) (tail : Ptr),
      SortedMerge_loop fuel m tail ≠ Except.error Fault.assertion := by
  intro fuel
  induction fuel with
  | zero =>
    intro m tail
    unfold SortedMerge_loop
    cases hA : m.var varA with
    | none => simp
    | some a =>
      cases hB : m.var varB with
      | none => simp
      | some b => simp
  | succ fuel ih =>
    intro m tail
    cases hA : m.var varA with
    | none => rw [loop_stop_left _ _ _ hA]; simp
    | some a =>
      cases hB : m.var varB with
      | none => rw [loop_stop_right _ _ _ hB]; simp
      | some b =>
        cases tail with
        | none =>
          rw [SortedMerge_loop, hA, hB]
          simp
        | some t =>
          rw [loop_step fuel m t a b hA hB]
          by_cases hle : (m.node a).data ≤ (m.node b).data
          · rw [if_pos hle, MoveNode_next_var m t varA a hA]
            exact ih _ _
          · rw [if_neg hle, MoveNode_next_var m t varB b hB]
            exact ih _ _

theorem linkRest_no_assertion (i : Nat) (m : Mem) (tail : Ptr) :
    linkRest i m tail ≠ Except.error Fault.assertion := by
  unfold linkRest
  cases m.var i with
  | none => simp
  | some n =>
    cases tail with
    | none => simp
    | some t => simp

/-- C15: for every heap, every two arguments `a` and `b` (lists or not) and
every amount of fuel, a run of `SortedMerge(a, b)` never ends in the failure of
`assert(newNode != NULL)`: each call of `MoveNode` is made on the variable
that the loop test has just found non-null. -/
theorem SortedMerge_assertion_never_fails (fuel : Nat) (heap : Nat → Node) (dummy : Nat)
    (a b : Ptr) :
    SortedMerge fuel heap dummy a b ≠ Except.error Fault.assertion := by
  unfold SortedMerge SortedMerge_body
  simp only
  generalize hm : (Mem.mk heap fun i => if i = varA then a else if i = varB then b else none)
    = m
  have hl := loop_no_assertion fuel m (some dummy)
  cases hloop : SortedMerge_loop fuel m (some dummy) with
  | error e =>
    rw [hloop] at hl
    simp only
    intro h
    apply hl
    injection h with h
    rw [h]
  | ok res =>
    obtain ⟨m1, tail⟩ := res
    simp only
    have h1 := linkRest_no_assertion varA m1 tail
    cases hA : linkRest varA m1 tail with
    | error e =>
      rw [hA] at h1
      simp only
      intro h
      apply h1
      injection h with h
      rw [h]
    | ok m2 =>
      simp only
      have h2 := linkRest_no_assertion varB m2 tail
      cases hB : linkRest varB m2 tail with
      | error e =>
        rw [hB] at h2
        simp only
        intro h
        apply h2
        injection h with h
        rw [h]
      | ok m3 =>
        simp

/-- C17 (the code at the failing input and at the other two cases): with both
arguments `NULL` the loop and both assignments are skipped and the call returns
`dummy.next` as it was at entry, an indeterminate value, whatever the fuel; on
the heap of `main`, where that cell holds the pointer 42, it returns 42 and not
`NULL`. With exactly one argument `NULL` the call stores the other argument in
`dummy.next`, changes nothing else and returns that argument. -/
theorem SortedMerge_with_empty_arguments (fuel : Nat) (heap : Nat → Node) (dummy : Nat) :
    SortedMerge fuel heap dummy none none = Except.ok (heap, (heap dummy).next) ∧
    SortedMerge 0 mainHeap 0 none none = Except.ok (mainHeap, some 42) ∧
    (∀ b : Nat, SortedMerge fuel heap dummy none (some b) =
      Except.ok (Function.update heap dummy { heap dummy with next := some b }, some b)) ∧
    (∀ a : Nat, SortedMerge fuel heap dummy (some a) none =
      Except.ok (Function.update heap dummy { heap dummy with next := some a }, some a)) := by
  have key : ∀ (a b : Ptr),
      SortedMerge fuel heap dummy a b =
        match SortedMerge_body fuel
          (Mem.mk heap fun i => if i = varA then a else if i = varB then b else none)
          (some dummy) with
        | Except.error e => Except.error e
        | Except.ok m => Except.ok (m.node, (m.node dummy).next) := fun a b => rfl
  refine ⟨?_, ?_, ?_, ?_⟩
  · rw [key]
    unfold SortedMerge_body
    rw [loop_stop_left fuel _ _ rfl]
    simp only
    rw [linkRest_none varA _ _ rfl]
    simp only
    rw [linkRest_none varB _ _ rfl]
  · rfl
  · intro b
    rw [key]
    unfold SortedMerge_body
    rw [loop_stop_left fuel _ _ rfl]
    simp only
    rw [linkRest_none varA _ _ rfl]
    simp only
    rw [linkRest_some varB _ dummy b rfl]
    simp only
    rw [write_next_same, write_next_node]
  · intro a
    rw [key]
    unfold SortedMerge_body
    rw [loop_stop_right fuel _ _ rfl]
    simp only
    rw [linkRest_some varA _ dummy a rfl]
    simp only
    rw [linkRest_none varB _ _ rfl]
    simp only
    rw [write_next_same, write_next_node]

end Train3

namespace Q1

/-! ## One step of the loop of `trap` -/

theorem readAt_nat (height : List Int) (i : Nat) (hi : i < height.length) :
    readAt height (i : Int) = some (height.getD i 0) := by
  unfold readAt
  rw [if_pos (Int.ofNat_nonneg i), Int.toNat_ofNat, List.getElem?_eq_getElem hi,
    List.getD_eq_getElem _ _ hi]

theorem trap_loop_done (height : List Int) (left right lm rm t : Int)
    (h : ¬ left < right) : trap_loop height left right lm rm t = some t := by
  rw [trap_loop, dif_neg h]

theorem trap_loop_left_keep (height : List Int) (left right lm rm t hl hr : Int)
    (h : left < right) (h1 : readAt height left = some hl)
    (h2 : readAt height right = some hr) (hlt : hl < hr) (hge : hl ≥ lm)
    (hin : inInt (left + 1) = true) :
    trap_loop height left right lm rm t = trap_loop height (left + 1) right hl rm t := by
  rw [trap_loop, dif_pos h, h1, h2]
  simp only [if_pos hlt, if_pos hge, hin, if_true]

theorem trap_loop_left_add (height : List Int) (left right lm rm t hl hr : Int)
    (h : left < right) (h1 : readAt height left = some hl)
    (h2 : readAt height right = some hr) (hlt : hl < hr) (hge : ¬ hl ≥ lm)
    (hin1 : inInt (lm - hl) = true) (hin2 : inInt (t + (lm - hl)) = true)
    (hin3 : inInt (left + 1) = true) :
    trap_loop height left right lm rm t =
      trap_loop height (left + 1) right lm rm (t + (lm - hl)) := by
  rw [trap_loop, dif_pos h, h1, h2]
  simp only [if_pos hlt, if_neg hge, hin1, hin2, hin3, Bool.and_self, if_true]

theorem trap_loop_right_keep (height : List Int) (left right lm rm t hl hr : Int)
    (h : left < right) (h1 : readAt height left = some hl)
    (h2 : readAt height right = some hr) (hlt : ¬ hl < hr) (hge : hr ≥ rm)
    (hin : inInt (right - 1) = true) :
    trap_loop height left right lm rm t = trap_loop height left (right - 1) lm hr t := by
  rw [trap_loop, dif_pos h, h1, h2]
  simp only [if_neg hlt, if_pos hge, hin, if_true]

theorem trap_loop_right_add (height : List Int) (left right lm rm t hl hr : Int)
    (h : left < right) (h1 : readAt height left = some hl)
    (h2 : readAt height right = some hr) (hlt : ¬ hl < hr) (hge : ¬ hr ≥ rm)
    (hin1 : inInt (rm - hr) = true) (hin2 : inInt (t + (rm - hr)) = true)
    (hin3 : inInt (right - 1) = true) :
    trap_loop height left right lm rm t =
      trap_loop height left (right - 1) lm rm (t + (rm - hr)) := by
  rw [trap_loop, dif_pos h, h1, h2]
  simp only [if_neg hlt, if_neg hge, hin1, hin2, hin3, Bool.and_self, if_true]

theorem inInt_of_bounds (x : Int) (h1 : -2147483648 ≤ x) (h2 : x ≤ 2147483647) :
    inInt x = true := by
  unfold inInt
  exact decide_eq_true ⟨h1, h2⟩

/-! ## The maxima of the brute-force computation -/

theorem updMax_eq_max (m x : Int) : updMax m x = max m x := by
  unfold updMax
  split <;> omega

theorem prefixMax_nonneg (height : List Int) : ∀ k, 0 ≤ prefixMax height k
  | 0 => le_refl _
  | k + 1 => by
    have := prefixMax_nonneg height k
    rw [prefixMax]
    omega

theorem le_prefixMax (height : List Int) :
    ∀ (k j : Nat), j < k → height.getD j 0 ≤ prefixMax height k
  | 0, _, h => absurd h (Nat.not_lt_zero _)
  | k + 1, j, h => by
    rw [prefixMax]
    by_cases e : j = k
    · subst e; omega
    · have := le_prefixMax height k j (by omega)
      omega

theorem suffixMax_nonneg (height : List Int) : ∀ (c k : Nat), 0 ≤ suffixMax height k c
  | 0, _ => le_refl _
  | c + 1, k => by
    have := suffixMax_nonneg height c (k + 1)
    rw [suffixMax]
    omega

theorem le_suffixMax (height : List Int) :
    ∀ (c k j : Nat), k ≤ j → j < k + c → height.getD j 0 ≤ suffixMax height k c
  | 0, _, _, h1, h2 => by omega
  | c + 1, k, j, h1, h2 => by
    rw [suffixMax]
    by_cases e : j = k
    · subst e; omega
    · have := le_suffixMax height c (k + 1) j (by omega) (by omega)
      omega

theorem maxLeftLoop_eq (height : List Int) :
    ∀ (j : Nat) (m : Int), 0 ≤ m →
      maxLeftLoop height j m = max m (prefixMax height (j + 1))
  | 0, m, hm => by
    rw [maxLeftLoop, updMax_eq_max, prefixMax, prefixMax]
    omega
  | j + 1, m, hm => by
    have e : prefixMax height (j + 1 + 1) =
        max (prefixMax height (j + 1)) (height.getD (j + 1) 0) := rfl
    rw [maxLeftLoop, updMax_eq_max, maxLeftLoop_eq height j _ (by omega), e]
    omega

theorem maxRightLoop_eq (height : List Int) :
    ∀ (c j : Nat) (m : Int), 0 ≤ m →
      maxRightLoop height j c m = max m (suffixMax height j c)
  | 0, j, m, hm => by
    rw [maxRightLoop, suffixMax]
    omega
  | c + 1, j, m, hm => by
    rw [maxRightLoop, updMax_eq_max, maxRightLoop_eq height c (j + 1) _ (by omega),
      suffixMax]
    omega

theorem waterAt_eq (height : List Int) (n i : Nat) :
    waterAt height n i =
      min (prefixMax height (i + 1)) (suffixMax height i (n - i)) - height.getD i 0 := by
  have h1 := prefixMax_nonneg height (i + 1)
  have h2 := suffixMax_nonneg height (n - i) i
  unfold waterAt
  simp only
  rw [maxLeftLoop_eq height i 0 (le_refl _), maxRightLoop_eq height (n - i) i 0 (le_refl _)]
  split <;> omega

theorem waterAt_nonneg (height : List Int) (n i : Nat) (hi : i < n) :
    0 ≤ waterAt height n i := by
  rw [waterAt_eq]
  have h1 := le_prefixMax height (i + 1) i (by omega)
  have h2 := le_suffixMax height (n - i) i i (le_refl _) (by omega)
  omega

theorem bruteForce_eq_sum (height : List Int) (n : Nat) :
    ∀ k, bruteForce height n k = ∑ i in Finset.range k, waterAt height n i
  | 0 => by simp [bruteForce]
  | k + 1 => by
    rw [bruteForce, bruteForce_eq_sum height n k, Finset.sum_range_succ]

theorem suffixMax_unfold (height : List Int) (r : Nat) (hr : r < height.length) :
    suffixMax height r (height.length - r) =
      max (height.getD r 0) (suffixMax height (r + 1) (height.length - (r + 1))) := by
  have e : height.length - r = (height.length - (r + 1)) + 1 := by omega
  rw [e]
  rfl

/-- The loop of `trap` from a state in which `left_max` and `right_max` are the
maxima of the parts already scanned, both are at most the larger of the two end
elements, and `total_water` plus the brute-force water of the span still to scan
is `T`: the loop ends with `T`, no `int` result leaving the range of `int`. -/
theorem trap_loop_spec (height : List Int) (T : Int) (hT : T ≤ 2147483647)
    (hn : height.length ≤ 2147483647) :
    ∀ (d l r : Nat) (lm rm t : Int), r = l + d → r < height.length →
      lm = prefixMax height l →
      rm = suffixMax height (r + 1) (height.length - (r + 1)) →
      lm ≤ max (height.getD l 0) (height.getD r 0) →
      rm ≤ max (height.getD l 0) (height.getD r 0) → 0 ≤ t →
      t + ∑ i in Finset.Ico l (r + 1), waterAt height height.length i = T →
      trap_loop height l r lm rm t = some T := by
  intro d
  induction d with
  | zero =>
    intro l r lm rm t hr hrn hlm hrm hl1 hr1 ht hsum
    have e : r = l := by omega
    subst e
    rw [trap_loop_done _ _ _ _ _ _ (lt_irrefl _)]
    have eP : prefixMax height (r + 1) =
        max (prefixMax height r) (height.getD r 0) := rfl
    have eS := suffixMax_unfold height r hrn
    rw [Nat.Ico_succ_singleton, Finset.sum_singleton, waterAt_eq, eP, eS] at hsum
    congr 1
    omega
  | succ d ih =>
    intro l r lm rm t hr hrn hlm hrm hl1 hr1 ht hsum
    have hlr : (l : Int) < (r : Int) := by omega
    have hl_lt : l < height.length := by omega
    have rl := readAt_nat height l hl_lt
    have rr := readAt_nat height r hrn
    have eP : prefixMax height (l + 1) =
        max (prefixMax height l) (height.getD l 0) := rfl
    have eS := suffixMax_unfold height r hrn
    by_cases hlt : height.getD l 0 < height.getD r 0
    · have hW : waterAt height height.length l = max lm (height.getD l 0) - height.getD l 0 := by
        rw [waterAt_eq, eP, ← hlm]
        have := le_suffixMax height (height.length - l) l r (by omega) (by omega)
        omega
      have hsplit := Finset.sum_eq_sum_Ico_succ_bot (show l < r + 1 by omega)
        (fun i => waterAt height height.length i)
      rw [hsplit, hW] at hsum
      have hrest : 0 ≤ ∑ i in Finset.Ico (l + 1) (r + 1), waterAt height height.length i :=
        Finset.sum_nonneg (fun i hi =>
          waterAt_nonneg height height.length i
            (by have := Finset.mem_Ico.mp hi; omega))
      have hin : inInt ((l : Int) + 1) = true := inInt_of_bounds _ (by omega) (by omega)
      have hcast : (((l + 1 : Nat) : Int)) = (l : Int) + 1 := by omega
      by_cases hge : height.getD l 0 ≥ lm
      · rw [trap_loop_left_keep height l r lm rm t _ _ hlr rl rr hlt hge hin, ← hcast]
        exact ih (l + 1) r (height.getD l 0) rm t (by omega) hrn
          (by rw [eP, ← hlm]; omega) hrm (by omega) (by omega) ht (by omega)
      · rw [trap_loop_left_add height l r lm rm t _ _ hlr rl rr hlt hge
          (inInt_of_bounds _ (by omega) (by omega))
          (inInt_of_bounds _ (by omega) (by omega)) hin, ← hcast]
        exact ih (l + 1) r lm rm (t + (lm - height.getD l 0)) (by omega) hrn
          (by rw [eP, ← hlm]; omega) hrm (by omega) (by omega) (by omega) (by omega)
    · obtain ⟨r', rfl⟩ : ∃ r', r = r' + 1 := ⟨l + d, by omega⟩
      have hr'n : r' < height.length := by omega
      have hW : waterAt height height.length (r' + 1) =
          max (height.getD (r' + 1) 0) rm - height.getD (r' + 1) 0 := by
        rw [waterAt_eq, eS, ← hrm]
        have := le_prefixMax height (r' + 1 + 1) l (by omega)
        omega
      have hsplit := Finset.sum_Ico_succ_top (show l ≤ r' + 1 by omega)
        (fun i => waterAt height height.length i)
      rw [hsplit, hW] at hsum
      have hrest : 0 ≤ ∑ i in Finset.Ico l (r' + 1), waterAt height height.length i :=
        Finset.sum_nonneg (fun i hi =>
          waterAt_nonneg height height.length i
            (by have := Finset.mem_Ico.mp hi; omega))
      have hin : inInt (((r' + 1 : Nat) : Int) - 1) = true :=
        inInt_of_bounds _ (by omega) (by omega)
      have hcast : (r' : Int) = ((r' + 1 : Nat) : Int) - 1 := by omega
      by_cases hge : height.getD (r' + 1) 0 ≥ rm
      · rw [trap_loop_right_keep height l _ lm rm t _ _ hlr rl rr hlt hge hin, ← hcast]
        exact ih l r' lm (height.getD (r' + 1) 0) t (by omega) hr'n hlm
          (by rw [eS, ← hrm]; omega) (by omega) (by omega) ht (by omega)
      · rw [trap_loop_right_add height l _ lm rm t _ _ hlr rl rr hlt hge
          (inInt_of_bounds _ (by omega) (by omega))
          (inInt_of_bounds _ (by omega) (by omega)) hin, ← hcast]
        exact ih l r' lm rm (t + (rm - height.getD (r' + 1) 0)) (by omega) hr'n hlm
          (by rw [eS, ← hrm]; omega) (by omega) (by omega) (by omega) (by omega)

theorem getD_nonneg (height : List Int) (hpos : ∀ x ∈ height, 0 ≤ x) (i : Nat)
    (hi : i < height.length) : 0 ≤ height.getD i 0 := by
  rw [List.getD_eq_getElem _ _ hi]
  exact hpos _ (List.getElem_mem hi)

theorem prefixMax_attained (height : List Int) (hpos : ∀ x ∈ height, 0 ≤ x) :
    ∀ k, 0 < k → k ≤ height.length → ∃ j, j < k ∧ height.getD j 0 = prefixMax height k
  | 0, h, _ => absurd h (Nat.lt_irrefl 0)
  | k + 1, _, hk => by
    have e : prefixMax height (k + 1) =
        max (prefixMax height k) (height.getD k 0) := rfl
    by_cases hle : prefixMax height k ≤ height.getD k 0
    · exact ⟨k, by omega, by rw [e]; omega⟩
    · have hk0 : 0 < k := by
        rcases Nat.eq_zero_or_pos k with h0 | h0
        · subst h0
          have := getD_nonneg height hpos 0 (by omega)
          have e0 : prefixMax height 0 = 0 := rfl
          omega
        · exact h0
      obtain ⟨j, hj, hv⟩ := prefixMax_attained height hpos k hk0 (by omega)
      exact ⟨j, by omega, by rw [e]; omega⟩

theorem suffixMax_attained (height : List Int) (hpos : ∀ x ∈ height, 0 ≤ x) :
    ∀ (c k : Nat), 0 < c → k + c ≤ height.length →
      ∃ j, k ≤ j ∧ j < k + c ∧ height.getD j 0 = suffixMax height k c
  | 0, _, h, _ => absurd h (Nat.lt_irrefl 0)
  | c + 1, k, _, hk => by
    have e : suffixMax height k (c + 1) =
        max (height.getD k 0) (suffixMax height (k + 1) c) := rfl
    by_cases hle : suffixMax height (k + 1) c ≤ height.getD k 0
    · exact ⟨k, le_refl _, by omega, by rw [e]; omega⟩
    · have hc0 : 0 < c := by
        rcases Nat.eq_zero_or_pos c with h0 | h0
        · subst h0
          have := getD_nonneg height hpos k (by omega)
          have e0 : suffixMax height (k + 1) 0 = 0 := rfl
          omega
        · exact h0
      obtain ⟨j, hj1, hj2, hv⟩ := suffixMax_attained height hpos c (k + 1) hc0 (by omega)
      exact ⟨j, by omega, by omega, by rw [e]; omega⟩

/-- On an array of non-negative values whose brute-force total fits in `int`,
`trap` returns that total. -/
theorem trap_correct (height : List Int) (hn : height.length ≤ 2147483647)
    (hpos : ∀ x ∈ height, 0 ≤ x)
    (hfit : bruteForce height height.length height.length ≤ 2147483647) :
    trap height (height.length : Int) =
      some (bruteForce height height.length height.length) := by
  unfold trap
  rw [if_pos (inInt_of_bounds _ (by omega) (by omega))]
  rcases Nat.eq_zero_or_pos height.length with h0 | h0
  · rw [h0]
    rw [trap_loop_done _ _ _ _ _ _ (by simp)]
    rfl
  · obtain ⟨k, hk⟩ : ∃ k, height.length = k + 1 := ⟨height.length - 1, by omega⟩
    have hcast : ((height.length : Nat) : Int) - 1 = (k : Int) := by omega
    have hz : (0 : Int) = ((0 : Nat) : Int) := rfl
    rw [hcast, hz]
    have h1 := getD_nonneg height hpos 0 (by omega)
    have hS : suffixMax height (k + 1) (height.length - (k + 1)) = 0 := by
      have e : height.length - (k + 1) = 0 := by omega
      rw [e]
      rfl
    refine trap_loop_spec height _ hfit hn k 0 k _ _ _ (by omega) (by omega) rfl
      (by rw [hS]; rfl) (by show (0 : Int) ≤ _; omega) (by show (0 : Int) ≤ _; omega)
      (le_refl _) ?_
    rw [bruteForce_eq_sum, Finset.range_eq_Ico, hk]
    show (0 : Int) + _ = _
    rw [Int.zero_add]

/-- C16: for every array `height` of `n` non-negative values (`n ≥ 0` fitting
in `int`) whose brute-force total fits in `int`, `trap(height, n)` returns, no
`int` result overflowing and no read leaving the array, the value `count` that
the nested loops of `main` compute for `n` elements: the sum over `i` in
`0..n-1` of `min(maxLeft, maxRight) - height[i]`, where `maxLeft` is the
greatest of `height[0..i]` and `maxRight` the greatest of `height[i..n-1]`. On
`height = {0,1,0,2,1,0,1,3,2,1,2}`, `n = 11`, the result is 6. -/
theorem trap_eq_bruteForce (height : List Int) (hn : height.length ≤ 2147483647)
    (hpos : ∀ x ∈ height, 0 ≤ x)
    (hfit : bruteForce height height.length height.length ≤ 2147483647) :
    trap height (height.length : Int) =
      some (bruteForce height height.length height.length) ∧
    bruteForce height height.length height.length =
      ∑ i in Finset.range height.length, waterAt height height.length i ∧
    (∀ i, i < height.length → ∃ maxLeft maxRight,
      waterAt height height.length i = min maxLeft maxRight - height.getD i 0 ∧
      (∀ j, j ≤ i → height.getD j 0 ≤ maxLeft) ∧
      (∃ j, j ≤ i ∧ height.getD j 0 = maxLeft) ∧
      (∀ j, i ≤ j → j < height.length → height.getD j 0 ≤ maxRight) ∧
      (∃ j, i ≤ j ∧ j < height.length ∧ height.getD j 0 = maxRight)) ∧
    trap [0, 1, 0, 2, 1, 0, 1, 3, 2, 1, 2] 11 = some 6 ∧
    bruteForce [0, 1, 0, 2, 1, 0, 1, 3, 2, 1, 2] 11 11 = 6 := by
  refine ⟨trap_correct height hn hpos hfit, bruteForce_eq_sum height _ _, ?_, ?_, by decide⟩
  · intro i hi
    refine ⟨prefixMax height (i + 1), suffixMax height i (height.length - i),
      waterAt_eq height _ i, ?_, ?_, ?_, ?_⟩
    · intro j hj
      exact le_prefixMax height (i + 1) j (by omega)
    · obtain ⟨j, hj, hv⟩ := prefixMax_attained height hpos (i + 1) (by omega) (by omega)
      exact ⟨j, by omega, hv⟩
    · intro j hj1 hj2
      exact le_suffixMax height (height.length - i) i j hj1 (by omega)
    · obtain ⟨j, hj1, hj2, hv⟩ :=
        suffixMax_attained height hpos (height.length - i) i (by omega) (by omega)
      exact ⟨j, hj1, by omega, hv⟩
  · have h := trap_correct [0, 1, 0, 2, 1, 0, 1, 3, 2, 1, 2] (by decide) (by decide)
      (by decide)
    have e : bruteForce [0, 1, 0, 2, 1, 0, 1, 3, 2, 1, 2]
        ([0, 1, 0, 2, 1, 0, 1, 3, 2, 1, 2] : List Int).length
        ([0, 1, 0, 2, 1, 0, 1, 3, 2, 1, 2] : List Int).length = 6 := by decide
    rw [e] at h
    exact h

theorem trap_eq_bruteForce_witness :
    ([0, 1, 0, 2, 1, 0, 1, 3, 2, 1, 2] : List Int).length ≤ 2147483647 ∧
    (∀ x ∈ ([0, 1, 0, 2, 1, 0, 1, 3, 2, 1, 2] : List Int), 0 ≤ x) ∧
    bruteForce [0, 1, 0, 2, 1, 0, 1, 3, 2, 1, 2]
      ([0, 1, 0, 2, 1, 0, 1, 3, 2, 1, 2] : List Int).length
      ([0, 1, 0, 2, 1, 0, 1, 3, 2, 1, 2] : List Int).length ≤ 2147483647 ∧
    trap [0, 1, 0, 2, 1, 0, 1, 3, 2, 1, 2]
        (([0, 1, 0, 2, 1, 0, 1, 3, 2, 1, 2] : List Int).length : Int) =
      some (bruteForce [0, 1, 0, 2, 1, 0, 1, 3, 2, 1, 2]
        ([0, 1, 0, 2, 1, 0, 1, 3, 2, 1, 2] : List Int).length
        ([0, 1, 0, 2, 1, 0, 1, 3, 2, 1, 2] : List Int).length) :=
  ⟨by decide, by decide, by decide,
    (trap_eq_bruteForce [0, 1, 0, 2, 1, 0, 1, 3, 2, 1, 2] (by decide) (by decide)
      (by decide)).1⟩

end Q1
